import Mathlib

/-!
HDLC transmit encoder (`hdlc_send.c`).

A shallow embedding of the bit-stream encoder of `src/src/hdlc_send.c`
and theorems about it.

Conventions of the embedding.

* The three file-level arrays `number_of_bits_sent[MAX_CHANS]`,
  `stuff[MAX_CHANS]` and `output[MAX_CHANS]` (the latter a function-level
  static of `send_bit`) are total maps from the channel index to `Int`.
  `MAX_CHANS` is declared in `direwolf.h`; the maps are total, so every
  index is in range.
* C `int` values are unbounded integers.  Signed overflow is undefined in
  C, so the embedding describes the executions in which no counter leaves
  the range of `int`.
* `x & m`, `x >> k`, `~x` and `!x` on `int` are `Int.land`,
  `Int.shiftRight`, `Int.not` and `lnot`: two's complement, arithmetic
  right shift.
* `unsigned char` is `Fin 256`; the value of `unsigned short fcs_calc(..)`
  is `Fin 65536`.
* Calls of the collaborators are recorded: `tone` holds the calls of
  `tone_gen_put_bit (chan, level)` made by `send_bit`, oldest first, and
  `log` holds the calls of the other collaborators.  `sent` is
  instrumentation: the arguments `(chan, b)` of every `send_bit` call.
-/

namespace HdlcSend

/-- An octet of the frame buffer (`unsigned char`). -/
abbrev Byte := Fin 256

/-- Calls of collaborators other than the tone consumer. -/
inductive Event where
  | fx25_send_frame (chan : Nat) (fbuf : List Byte) (fx25_xmit_enable : Int)
  | text_color_set
  | dw_printf
  | audio_flush (adev : Int)
  deriving DecidableEq, Repr

/-- The collaborators whose code is outside `hdlc_send.c`. -/
structure Collab where
  /-- The `fcs_calc (fbuf, flen)` of `fcs_calc.h`, an `unsigned short`. -/
  fcs_calc : List Byte → Fin 65536
  /-- The value `fx25_send_frame (chan, fbuf, flen, fx25_xmit_enable)` returns. -/
  fx25_send_frame : Nat → List Byte → Int → Int
  /-- The macro `ACHAN2ADEV` of `direwolf.h`. -/
  ACHAN2ADEV : Nat → Int

/-- The static storage of `hdlc_send.c` together with the recorded calls. -/
@[ext]
structure State where
  number_of_bits_sent : Nat → Int
  stuff : Nat → Int
  output : Nat → Int
  tone : List (Nat × Int)
  sent : List (Nat × Int)
  log : List Event

/-- The C operator `!` on an `int`. -/
def lnot (x : Int) : Int := if x = 0 then 1 else 0

/-- `send_bit (chan, b)`: NRZI encoding, one call of the tone consumer, one
count. -/
def send_bit (s : State) (chan : Nat) (b : Int) : State :=
  let out := if b = 0 then lnot (s.output chan) else s.output chan
  { s with
    output := Function.update s.output chan out
    tone := s.tone ++ [(chan, out)]
    number_of_bits_sent :=
      Function.update s.number_of_bits_sent chan (s.number_of_bits_sent chan + 1)
    sent := s.sent ++ [(chan, b)] }

/-- The body of the loop of `send_control`, without the shift of `x`. -/
def send_control_step (s : State) (chan : Nat) (x : Int) : State :=
  send_bit s chan (Int.land x 1)

/-- The loop `for (i=0; i<8; i++)` of `send_control`, with `n` iterations
left. -/
def send_control_loop : Nat → State → Nat → Int → State
  | 0, s, _, _ => s
  | n + 1, s, chan, x =>
      send_control_loop n (send_control_step s chan x) chan (Int.shiftRight x 1)

/-- `send_control (chan, x)`. -/
def send_control (s : State) (chan : Nat) (x : Int) : State :=
  let s1 := send_control_loop 8 s chan x
  { s1 with stuff := Function.update s1.stuff chan 0 }

/-- The body of the loop of `send_data`, without the shift of `x`. -/
def send_data_step (s : State) (chan : Nat) (x : Int) : State :=
  let s1 := send_bit s chan (Int.land x 1)
  if Int.land x 1 ≠ 0 then
    let s2 := { s1 with stuff := Function.update s1.stuff chan (s1.stuff chan + 1) }
    if s2.stuff chan = 5 then
      let s3 := send_bit s2 chan 0
      { s3 with stuff := Function.update s3.stuff chan 0 }
    else s2
  else
    { s1 with stuff := Function.update s1.stuff chan 0 }

/-- The loop `for (i=0; i<8; i++)` of `send_data`, with `n` iterations left. -/
def send_data_loop : Nat → State → Nat → Int → State
  | 0, s, _, _ => s
  | n + 1, s, chan, x =>
      send_data_loop n (send_data_step s chan x) chan (Int.shiftRight x 1)

/-- `send_data (chan, x)`. -/
def send_data (s : State) (chan : Nat) (x : Int) : State :=
  send_data_loop 8 s chan x

/-- The loop `for (j=0; j<flen; j++) send_data (chan, fbuf[j])`. -/
def send_data_bytes (s : State) (chan : Nat) (fbuf : List Byte) : State :=
  fbuf.foldl (fun t b => send_data t chan (b.val : Int)) s

/-- `ax25_only_hdlc_send_frame (chan, fbuf, flen, bad_fcs)`, with
`flen = fbuf.length`: the returned value and the state left behind. -/
def ax25_only_hdlc_send_frame (c : Collab) (s : State) (chan : Nat)
    (fbuf : List Byte) (bad_fcs : Int) : Int × State :=
  let s0 := { s with number_of_bits_sent := Function.update s.number_of_bits_sent chan 0 }
  let s1 := send_control s0 chan 0x7e
  let s2 := send_data_bytes s1 chan fbuf
  let fcs : Int := ((c.fcs_calc fbuf).val : Int)
  let s4 :=
    if bad_fcs ≠ 0 then
      send_data (send_data s2 chan (Int.land (Int.not fcs) 0xff)) chan
        (Int.land (Int.shiftRight (Int.not fcs) 8) 0xff)
    else
      send_data (send_data s2 chan (Int.land fcs 0xff)) chan
        (Int.land (Int.shiftRight fcs 8) 0xff)
  let s5 := send_control s4 chan 0x7e
  (s5.number_of_bits_sent chan, s5)

/-- `hdlc_send_frame (chan, fbuf, flen, bad_fcs, fx25_xmit_enable)`. -/
def hdlc_send_frame (c : Collab) (s : State) (chan : Nat) (fbuf : List Byte)
    (bad_fcs : Int) (fx25_xmit_enable : Int) : Int × State :=
  if fx25_xmit_enable ≠ 0 then
    let n := c.fx25_send_frame chan fbuf fx25_xmit_enable
    let s1 := { s with log := s.log ++ [Event.fx25_send_frame chan fbuf fx25_xmit_enable] }
    if n > 0 then
      (n, s1)
    else
      let s2 := { s1 with log := s1.log ++ [Event.text_color_set, Event.dw_printf] }
      ax25_only_hdlc_send_frame c s2 chan fbuf bad_fcs
  else
    ax25_only_hdlc_send_frame c s chan fbuf bad_fcs

/-- The loop `for (j=0; j<nflags; j++) send_control (chan, 0x7e)`, with `n`
iterations left. -/
def send_flags_loop : Nat → State → Nat → State
  | 0, s, _ => s
  | n + 1, s, chan => send_flags_loop n (send_control s chan 0x7e) chan

/-- `hdlc_send_flags (chan, nflags, finish)`. -/
def hdlc_send_flags (c : Collab) (s : State) (chan : Nat) (nflags : Int)
    (finish : Int) : Int × State :=
  let s0 := { s with number_of_bits_sent := Function.update s.number_of_bits_sent chan 0 }
  let s1 := send_flags_loop nflags.toNat s0 chan
  let s2 :=
    if finish ≠ 0 then { s1 with log := s1.log ++ [Event.audio_flush (c.ACHAN2ADEV chan)] }
    else s1
  (s2.number_of_bits_sent chan, s2)


/-! ## Reference notions, in the words of the specification -/

/-- The `n` low bits of `x`, least significant first. -/
def lsb_bits : Nat → Int → List Int
  | 0, _ => []
  | n + 1, x => x % 2 :: lsb_bits n (x / 2)

/-- The 8 bits of an octet, least significant first. -/
def byte_bits (x : Int) : List Int := lsb_bits 8 x

/-- The bits of a sequence of octets, in buffer order. -/
def bytes_bits (l : List Int) : List Int := (l.map byte_bits).flatten

/-- The HDLC flag `01111110`. -/
def flag_bits : List Int := [0, 1, 1, 1, 1, 1, 1, 0]

/-- Reference bit stuffing: `run` consecutive 1s have been seen; a single 0
is inserted right after every fifth consecutive 1 and the count restarts
after any 0 bit, data or inserted. -/
def stuff_bits : Nat → List Int → List Int
  | _, [] => []
  | run, b :: bs =>
      if b = 1 then
        if run + 1 = 5 then 1 :: 0 :: stuff_bits 0 bs else 1 :: stuff_bits (run + 1) bs
      else b :: stuff_bits 0 bs

/-- The run of 1s pending after the reference stuffing of a bit list. -/
def stuff_run : Nat → List Int → Nat
  | run, [] => run
  | run, b :: bs =>
      if b = 1 then
        if run + 1 = 5 then stuff_run 0 bs else stuff_run (run + 1) bs
      else stuff_run 0 bs

/-- The number of 0 bits the reference stuffing inserts. -/
def stuff_count : Nat → List Int → Nat
  | _, [] => 0
  | run, b :: bs =>
      if b = 1 then
        if run + 1 = 5 then stuff_count 0 bs + 1 else stuff_count (run + 1) bs
      else stuff_count 0 bs

/-- The receiver's NRZI decoding: a bit is 1 iff the level did not change. -/
def nrzi_decode : Int → List Int → List Int
  | _, [] => []
  | prev, l :: ls => (if l = prev then 1 else 0) :: nrzi_decode l ls

/-- The receiver's destuffing: the 0 that follows five consecutive 1s is
deleted; `run` is the number of consecutive 1s read so far. -/
def unstuff : Nat → List Int → List Int
  | _, [] => []
  | run, b :: bs =>
      if run = 5 ∧ b = 0 then unstuff 0 bs
      else if b = 1 then b :: unstuff (run + 1) bs
      else b :: unstuff 0 bs

/-- Regrouping of bits into octets, 8 at a time, least significant first. -/
def regroup : List Int → List Int
  | b0 :: b1 :: b2 :: b3 :: b4 :: b5 :: b6 :: b7 :: rest =>
      (b0 + 2 * b1 + 4 * b2 + 8 * b3 + 16 * b4 + 32 * b5 + 64 * b6 + 128 * b7) :: regroup rest
  | _ => []

/-- The receiver: NRZI decoding against the previous level, removal of the
leading and of the trailing flag, destuffing, regrouping. -/
def decode_frame (prev : Int) (levels : List Int) : List Int :=
  regroup (unstuff 0 (List.rdrop ((nrzi_decode prev levels).drop 8) 8))

/-- Each level differs from the one before it exactly when the bit sent is 0. -/
def nrzi_consistent : Int → List Int → List Int → Prop
  | _, [], [] => True
  | prev, l :: ls, b :: bs => (l ≠ prev ↔ b = 0) ∧ nrzi_consistent l ls bs
  | _, _, _ => False

/-! ## Normal forms of the encoder -/

/-- The levels `send_bit` forwards for a sequence of bits, from level `lvl`. -/
def nrzi : Int → List Int → List Int
  | _, [] => []
  | lvl, b :: bs =>
      (if b = 0 then lnot lvl else lvl) :: nrzi (if b = 0 then lnot lvl else lvl) bs

/-- The level `send_bit` leaves after a sequence of bits, from level `lvl`. -/
def nrzi_last : Int → List Int → Int
  | lvl, [] => lvl
  | lvl, b :: bs => nrzi_last (if b = 0 then lnot lvl else lvl) bs

/-- A sequence of `send_bit` calls on one channel. -/
def emit (s : State) (chan : Nat) : List Int → State
  | [] => s
  | b :: bs => emit (send_bit s chan b) chan bs

/-- The assignment `stuff[chan] = v`. -/
def set_stuff (s : State) (chan : Nat) (v : Int) : State :=
  { s with stuff := Function.update s.stuff chan v }

/-- The assignment `number_of_bits_sent[chan] = 0`. -/
def reset_count (s : State) (chan : Nat) : State :=
  { s with number_of_bits_sent := Function.update s.number_of_bits_sent chan 0 }

/-- The two check octets `ax25_only_hdlc_send_frame` passes to `send_data`. -/
def fcs_octets (fcs : Int) (bad_fcs : Int) : List Int :=
  if bad_fcs ≠ 0 then
    [Int.land (Int.not fcs) 0xff, Int.land (Int.shiftRight (Int.not fcs) 8) 0xff]
  else
    [Int.land fcs 0xff, Int.land (Int.shiftRight fcs 8) 0xff]

/-- The octets of a frame that go through `send_data`: payload, then check
octets. -/
def frame_octets (c : Collab) (fbuf : List Byte) (bad_fcs : Int) : List Int :=
  fbuf.map (fun b => (b.val : Int)) ++ fcs_octets ((c.fcs_calc fbuf).val : Int) bad_fcs

/-- The logical bits of one frame: flag, stuffed octets, flag. -/
def frame_bits (c : Collab) (fbuf : List Byte) (bad_fcs : Int) : List Int :=
  flag_bits ++ stuff_bits 0 (bytes_bits (frame_octets c fbuf bad_fcs)) ++ flag_bits

/-- The static storage at program start, nothing recorded yet. -/
def State.init : State :=
  { number_of_bits_sent := fun _ => 0, stuff := fun _ => 0, output := fun _ => 0,
    tone := [], sent := [], log := [] }

/-- A sample set of collaborators, for evaluation on concrete inputs: a
constant check value, a constant encapsulator result, device `chan >> 1`. -/
def Collab.const (fcs : Fin 65536) (n : Int) : Collab :=
  { fcs_calc := fun _ => fcs, fx25_send_frame := fun _ _ _ => n,
    ACHAN2ADEV := fun chan => Int.shiftRight (chan : Int) 1 }

/-- The octets handed to `send_data` one after the other. -/
def send_data_list (s : State) (chan : Nat) (l : List Int) : State :=
  l.foldl (fun t x => send_data t chan x) s

/-- Every element is 0 or 1. -/
def is_bits (l : List Int) : Prop := ∀ b ∈ l, b = 0 ∨ b = 1

/-- Reading a bit list with `r` consecutive 1s already seen, the count of
consecutive 1s never reaches 6. -/
def run_ok : Nat → List Int → Prop
  | _, [] => True
  | r, b :: bs => if b = 1 then r + 1 < 6 ∧ run_ok (r + 1) bs else run_ok 0 bs

/-- The flag repeated `n` times. -/
def flag_rep (n : Nat) : List Int := (List.replicate n flag_bits).flatten

/-- A call of one of the two entry points of the encoder. -/
inductive Call where
  | frame (fbuf : List Byte) (bad_fcs : Int) (fx25_xmit_enable : Int)
  | flags (nflags : Int) (finish : Int)

/-- The state after one call on channel `chan`. -/
def run_call (c : Collab) (s : State) (chan : Nat) : Call → State
  | Call.frame fbuf bad_fcs fx25_xmit_enable =>
      (hdlc_send_frame c s chan fbuf bad_fcs fx25_xmit_enable).2
  | Call.flags nflags finish => (hdlc_send_flags c s chan nflags finish).2

/-- The state after a sequence of calls on channel `chan`. -/
def run_calls (c : Collab) (s : State) (chan : Nat) (calls : List Call) : State :=
  calls.foldl (fun t k => run_call c t chan k) s

/-- From `s` to `t` the bits `bits` went through `send_bit` on `chan`, and
nothing else touched the records of bits and levels or the line level. -/
def emits (s t : State) (chan : Nat) (bits : List Int) : Prop :=
  t.tone = s.tone ++ (nrzi (s.output chan) bits).map (fun l => (chan, l))
  ∧ t.sent = s.sent ++ bits.map (fun b => (chan, b))
  ∧ t.output = Function.update s.output chan (nrzi_last (s.output chan) bits)

/-- The levels forwarded to the tone consumer between state `s` and the later
state `t`. -/
def new_levels (s t : State) : List Int := (t.tone.drop s.tone.length).map Prod.snd

/-- The bits handed to `send_bit` between state `s` and the later state `t`. -/
def new_bits (s t : State) : List Int := (t.sent.drop s.sent.length).map Prod.snd

/-- The bits of the payload octets, in buffer order. -/
def payload_bits (fbuf : List Byte) : List Int :=
  bytes_bits (fbuf.map (fun b => (b.val : Int)))

/-- The stuffed bits of the two check octets, the run of 1s carried over from
the payload. -/
def check_bits (c : Collab) (fbuf : List Byte) (bad_fcs : Int) : List Int :=
  stuff_bits (stuff_run 0 (payload_bits fbuf))
    (bytes_bits (fcs_octets ((c.fcs_calc fbuf).val : Int) bad_fcs))

/-- The state that differs from `s` only in the opposite line level on
`chan`. -/
def flip_level (s : State) (chan : Nat) : State :=
  { s with output := Function.update s.output chan (lnot (s.output chan)) }

/-- A call of one of the four routines that touch `stuff`, with its channel. -/
inductive Op where
  | data (chan : Nat) (x : Int)
  | control (chan : Nat) (x : Int)
  | frame (chan : Nat) (fbuf : List Byte) (bad_fcs : Int)
  | flags (chan : Nat) (nflags : Int) (finish : Int)

/-- The state after one routine call. -/
def run_op (c : Collab) (s : State) : Op → State
  | Op.data chan x => send_data s chan x
  | Op.control chan x => send_control s chan x
  | Op.frame chan fbuf bad_fcs => (ax25_only_hdlc_send_frame c s chan fbuf bad_fcs).2
  | Op.flags chan nflags finish => (hdlc_send_flags c s chan nflags finish).2

/-- The state after a sequence of routine calls. -/
def run_ops (c : Collab) (s : State) (ops : List Op) : State :=
  ops.foldl (fun t o => run_op c t o) s

/-- The levels forwarded to the tone consumer for channel `d`, oldest first. -/
def tone_of (s : State) (d : Nat) : List Int :=
  (s.tone.filter (fun p => decide (p.1 = d))).map Prod.snd

/-- What the state holds for channel `d`: its count, its stuffing run, its
line level and the levels forwarded for it. -/
def chan_view (s : State) (d : Nat) : Int × Int × Int × List Int :=
  (s.number_of_bits_sent d, s.stuff d, s.output d, tone_of s d)

/-- The state after a sequence of calls of the entry points, each on its own
channel. -/
def run_chan_calls (c : Collab) (s : State) (calls : List (Nat × Call)) : State :=
  calls.foldl (fun t p => run_call c t p.1 p.2) s

/-- Every stuffing run is in `0..4` and every line level is 0 or 1. -/
def reach_inv (s : State) : Prop :=
  ∀ ch, (0 ≤ s.stuff ch ∧ s.stuff ch ≤ 4) ∧ (s.output ch = 0 ∨ s.output ch = 1)

/-! ## Arithmetic reading of the bit operators -/


theorem land_zero_right (x : Int) : Int.land x 0 = 0 := by
  cases x with
  | ofNat n => show ((Nat.land n 0 : Nat) : Int) = 0; exact congrArg Int.ofNat (Nat.and_zero n)
  | negSucc n => show ((Nat.ldiff 0 n : Nat) : Int) = 0; simp [Nat.ldiff]

theorem land_odd_step (x n : Int) :
    Int.land x (2 * n + 1) = 2 * Int.land (x / 2) n + x % 2 := by
  have h := Int.land_bit (Int.bodd x) (Int.div2 x) true n
  rw [Int.bit_decomp] at h
  have h1 : Int.bit true n = 2 * n + 1 := by simp [Int.bit_val]
  rw [h1] at h
  rw [h, Int.bit_val, Int.div2_val]
  have h2 := Int.bodd_add_div2 x
  rw [Int.div2_val] at h2
  cases hb : Int.bodd x <;> simp [hb] at h2 ⊢ <;> omega

theorem land_one_eq (x : Int) : Int.land x 1 = x % 2 := by
  have h := land_odd_step x 0
  simp only [land_zero_right] at h
  simpa using h

theorem land_255_eq (x : Int) : Int.land x 0xff = x % 256 := by
  have e1 : (0xff : Int) = 2 * 127 + 1 := by norm_num
  have e2 : (127 : Int) = 2 * 63 + 1 := by norm_num
  have e3 : (63 : Int) = 2 * 31 + 1 := by norm_num
  have e4 : (31 : Int) = 2 * 15 + 1 := by norm_num
  have e5 : (15 : Int) = 2 * 7 + 1 := by norm_num
  have e6 : (7 : Int) = 2 * 3 + 1 := by norm_num
  have e7 : (3 : Int) = 2 * 1 + 1 := by norm_num
  have e8 : (1 : Int) = 2 * 0 + 1 := by norm_num
  rw [e1, land_odd_step, e2, land_odd_step, e3, land_odd_step, e4, land_odd_step,
    e5, land_odd_step, e6, land_odd_step, e7, land_odd_step]
  rw [land_one_eq]
  omega

theorem shiftRight_one_eq (x : Int) : Int.shiftRight x 1 = x / 2 := by
  have h := Int.shiftRight_eq_div_pow x 1
  simpa using h

theorem shiftRight_8_eq (x : Int) : Int.shiftRight x 8 = x / 256 := by
  have h := Int.shiftRight_eq_div_pow x 8
  simpa using h

theorem not_eq (x : Int) : Int.not x = -x - 1 := by
  cases x with
  | ofNat n => show Int.negSucc n = -(n : Int) - 1; rw [Int.negSucc_eq]; omega
  | negSucc n => show (n : Int) = -(Int.negSucc n) - 1; rw [Int.negSucc_eq]; omega


/-! ## Elementary facts on `send_bit` and `emit` -/

theorem lnot_ne (x : Int) : lnot x ≠ x := by
  unfold lnot
  split <;> omega

theorem send_bit_set_stuff (s : State) (chan : Nat) (v b : Int) :
    send_bit (set_stuff s chan v) chan b = set_stuff (send_bit s chan b) chan v := rfl

theorem set_stuff_set_stuff (s : State) (chan : Nat) (v w : Int) :
    set_stuff (set_stuff s chan v) chan w = set_stuff s chan w := by
  unfold set_stuff
  simp

theorem set_stuff_self (s : State) (chan : Nat) (v : Int) (h : s.stuff chan = v) :
    set_stuff s chan v = s := by
  unfold set_stuff
  subst h
  simp

theorem set_stuff_stuff (s : State) (chan : Nat) (v : Int) :
    (set_stuff s chan v).stuff chan = v := by
  simp [set_stuff]

theorem emit_append (s : State) (chan : Nat) (a b : List Int) :
    emit s chan (a ++ b) = emit (emit s chan a) chan b := by
  induction a generalizing s with
  | nil => rfl
  | cons x xs ih => simp [emit, ih]

theorem emit_set_stuff (s : State) (chan : Nat) (v : Int) (bits : List Int) :
    emit (set_stuff s chan v) chan bits = set_stuff (emit s chan bits) chan v := by
  induction bits generalizing s with
  | nil => rfl
  | cons x xs ih => simp [emit, send_bit_set_stuff, ih]

theorem emit_stuff (s : State) (chan : Nat) (bits : List Int) :
    (emit s chan bits).stuff = s.stuff := by
  induction bits generalizing s with
  | nil => rfl
  | cons x xs ih => simp [emit, ih, send_bit]

theorem emit_log (s : State) (chan : Nat) (bits : List Int) :
    (emit s chan bits).log = s.log := by
  induction bits generalizing s with
  | nil => rfl
  | cons x xs ih => simp [emit, ih, send_bit]

theorem emit_sent (s : State) (chan : Nat) (bits : List Int) :
    (emit s chan bits).sent = s.sent ++ bits.map (fun b => (chan, b)) := by
  induction bits generalizing s with
  | nil => simp [emit]
  | cons x xs ih => simp [emit, ih, send_bit]

theorem emit_tone (s : State) (chan : Nat) (bits : List Int) :
    (emit s chan bits).tone
      = s.tone ++ (nrzi (s.output chan) bits).map (fun l => (chan, l)) := by
  induction bits generalizing s with
  | nil => simp [emit, nrzi]
  | cons x xs ih => simp [emit, ih, send_bit, nrzi]

theorem emit_output (s : State) (chan : Nat) (bits : List Int) :
    (emit s chan bits).output
      = Function.update s.output chan (nrzi_last (s.output chan) bits) := by
  induction bits generalizing s with
  | nil => simp [emit, nrzi_last]
  | cons x xs ih => simp [emit, ih, send_bit, nrzi_last]

theorem emit_count (s : State) (chan : Nat) (bits : List Int) :
    (emit s chan bits).number_of_bits_sent
      = Function.update s.number_of_bits_sent chan
          (s.number_of_bits_sent chan + (bits.length : Int)) := by
  induction bits generalizing s with
  | nil => simp [emit]
  | cons x xs ih =>
      simp only [emit, ih, send_bit, Function.update_same, Function.update_idem,
        List.length_cons]
      have e : s.number_of_bits_sent chan + 1 + (xs.length : Int)
          = s.number_of_bits_sent chan + ((xs.length + 1 : Nat) : Int) := by
        push_cast
        omega
      rw [e]

theorem nrzi_length (lvl : Int) (bits : List Int) : (nrzi lvl bits).length = bits.length := by
  induction bits generalizing lvl with
  | nil => rfl
  | cons x xs ih => simp [nrzi, ih]

theorem nrzi_append (lvl : Int) (a b : List Int) :
    nrzi lvl (a ++ b) = nrzi lvl a ++ nrzi (nrzi_last lvl a) b := by
  induction a generalizing lvl with
  | nil => rfl
  | cons x xs ih => simp [nrzi, nrzi_last, ih]

theorem nrzi_last_append (lvl : Int) (a b : List Int) :
    nrzi_last lvl (a ++ b) = nrzi_last (nrzi_last lvl a) b := by
  induction a generalizing lvl with
  | nil => rfl
  | cons x xs ih => simp [nrzi_last, ih]

/-! ## Normal form of `send_control` -/

theorem send_control_loop_eq (n : Nat) (s : State) (chan : Nat) (x : Int) :
    send_control_loop n s chan x = emit s chan (lsb_bits n x) := by
  induction n generalizing s x with
  | zero => rfl
  | succ n ih =>
      simp only [send_control_loop, send_control_step, lsb_bits, emit, ih, land_one_eq,
        shiftRight_one_eq]

theorem send_control_eq (s : State) (chan : Nat) (x : Int) :
    send_control s chan x = set_stuff (emit s chan (byte_bits x)) chan 0 := by
  simp only [send_control, send_control_loop_eq, set_stuff, byte_bits]

theorem send_flag_eq (s : State) (chan : Nat) :
    send_control s chan 0x7e = set_stuff (emit s chan flag_bits) chan 0 := by
  rw [send_control_eq]
  rfl

/-! ## Normal form of `send_data` -/

theorem stuff_bits_append (r : Nat) (a b : List Int) :
    stuff_bits r (a ++ b) = stuff_bits r a ++ stuff_bits (stuff_run r a) b := by
  induction a generalizing r with
  | nil => rfl
  | cons x xs ih =>
      simp only [List.cons_append, stuff_bits, stuff_run]
      split
      · split <;> simp [ih]
      · simp [ih]

theorem stuff_run_append (r : Nat) (a b : List Int) :
    stuff_run r (a ++ b) = stuff_run (stuff_run r a) b := by
  induction a generalizing r with
  | nil => rfl
  | cons x xs ih =>
      simp only [List.cons_append, stuff_run]
      split
      · split <;> simp [ih]
      · simp [ih]

theorem stuff_count_append (r : Nat) (a b : List Int) :
    stuff_count r (a ++ b) = stuff_count r a + stuff_count (stuff_run r a) b := by
  induction a generalizing r with
  | nil => simp [stuff_count, stuff_run]
  | cons x xs ih =>
      simp only [List.cons_append, stuff_count, stuff_run]
      split
      · split
        · simp [ih]
          omega
        · simp [ih]
      · simp [ih]

theorem stuff_bits_length (r : Nat) (bits : List Int) :
    (stuff_bits r bits).length = bits.length + stuff_count r bits := by
  induction bits generalizing r with
  | nil => rfl
  | cons x xs ih =>
      simp only [stuff_bits, stuff_count]
      split
      · split <;> simp [ih] <;> omega
      · simp [ih]
        omega

theorem send_data_step_eq (s : State) (chan : Nat) (x : Int) (r : Nat)
    (h : s.stuff chan = (r : Int)) :
    send_data_step s chan x
      = set_stuff (emit s chan (stuff_bits r [x % 2])) chan (stuff_run r [x % 2] : Nat) := by
  have hx : x % 2 = 0 ∨ x % 2 = 1 := by omega
  unfold send_data_step
  rw [land_one_eq]
  rcases hx with hx | hx
  · simp [hx, stuff_bits, stuff_run, emit, set_stuff]
  · by_cases h5 : r + 1 = 5
    · have h4 : s.stuff chan + 1 = 5 := by rw [h]; omega
      simp [hx, stuff_bits, stuff_run, emit, set_stuff, h5, send_bit, h4]
    · have h4 : ¬ (s.stuff chan + 1 = 5) := by rw [h]; omega
      have h6 : ¬ ((r : Int) + 1 = 5) := by omega
      simp [hx, stuff_bits, stuff_run, emit, set_stuff, h5, send_bit, h4, h, h6]

theorem send_data_loop_eq (n : Nat) (s : State) (chan : Nat) (x : Int) (r : Nat)
    (h : s.stuff chan = (r : Int)) :
    send_data_loop n s chan x
      = set_stuff (emit s chan (stuff_bits r (lsb_bits n x))) chan
          (stuff_run r (lsb_bits n x) : Nat) := by
  induction n generalizing s x r with
  | zero =>
      simp only [send_data_loop, lsb_bits, stuff_bits, stuff_run, emit]
      exact (set_stuff_self s chan _ h).symm
  | succ n ih =>
      have e : lsb_bits (n + 1) x = [x % 2] ++ lsb_bits n (x / 2) := rfl
      rw [send_data_loop, send_data_step_eq s chan x r h, shiftRight_one_eq,
        ih _ _ _ (set_stuff_stuff _ chan _), e, stuff_bits_append, stuff_run_append,
        emit_append, emit_set_stuff, set_stuff_set_stuff]

theorem send_data_eq (s : State) (chan : Nat) (x : Int) (r : Nat)
    (h : s.stuff chan = (r : Int)) :
    send_data s chan x
      = set_stuff (emit s chan (stuff_bits r (byte_bits x))) chan
          (stuff_run r (byte_bits x) : Nat) :=
  send_data_loop_eq 8 s chan x r h


theorem send_data_list_eq (l : List Int) (s : State) (chan : Nat) (r : Nat)
    (h : s.stuff chan = (r : Int)) :
    send_data_list s chan l
      = set_stuff (emit s chan (stuff_bits r (bytes_bits l))) chan
          (stuff_run r (bytes_bits l) : Nat) := by
  induction l generalizing s r with
  | nil =>
      simp only [send_data_list, List.foldl_nil, bytes_bits, List.map_nil, List.flatten_nil,
        stuff_bits, stuff_run, emit]
      exact (set_stuff_self s chan _ h).symm
  | cons x xs ih =>
      have e : bytes_bits (x :: xs) = byte_bits x ++ bytes_bits xs := rfl
      have step : send_data_list s chan (x :: xs)
          = send_data_list (send_data s chan x) chan xs := rfl
      rw [step, send_data_eq s chan x r h, ih _ _ (set_stuff_stuff _ chan _), e,
        stuff_bits_append, stuff_run_append, emit_append, emit_set_stuff, set_stuff_set_stuff]

theorem send_data_bytes_eq_list (s : State) (chan : Nat) (fbuf : List Byte) :
    send_data_bytes s chan fbuf
      = send_data_list s chan (fbuf.map (fun b => (b.val : Int))) := by
  simp [send_data_bytes, send_data_list, List.foldl_map]

theorem frame_state_eq_list (c : Collab) (s : State) (chan : Nat) (fbuf : List Byte)
    (bad_fcs : Int) :
    (ax25_only_hdlc_send_frame c s chan fbuf bad_fcs).2
      = send_control
          (send_data_list (send_control (reset_count s chan) chan 0x7e) chan
            (frame_octets c fbuf bad_fcs)) chan 0x7e := by
  unfold ax25_only_hdlc_send_frame frame_octets fcs_octets
  simp only [send_data_bytes_eq_list, send_data_list, List.foldl_append, reset_count]
  split <;> rfl

theorem frame_state_eq (c : Collab) (s : State) (chan : Nat) (fbuf : List Byte)
    (bad_fcs : Int) :
    (ax25_only_hdlc_send_frame c s chan fbuf bad_fcs).2
      = set_stuff (emit (reset_count s chan) chan (frame_bits c fbuf bad_fcs)) chan 0 := by
  rw [frame_state_eq_list, send_flag_eq, send_flag_eq,
    send_data_list_eq _ _ chan 0 (set_stuff_stuff _ chan 0)]
  simp only [emit_set_stuff, set_stuff_set_stuff, frame_bits, emit_append]

theorem frame_ret_eq (c : Collab) (s : State) (chan : Nat) (fbuf : List Byte)
    (bad_fcs : Int) :
    (ax25_only_hdlc_send_frame c s chan fbuf bad_fcs).1
      = ((frame_bits c fbuf bad_fcs).length : Int) := by
  have h : (ax25_only_hdlc_send_frame c s chan fbuf bad_fcs).1
      = (ax25_only_hdlc_send_frame c s chan fbuf bad_fcs).2.number_of_bits_sent chan := rfl
  rw [h, frame_state_eq]
  simp [set_stuff, emit_count, reset_count]

theorem frame_tone (c : Collab) (s : State) (chan : Nat) (fbuf : List Byte) (bad_fcs : Int) :
    (ax25_only_hdlc_send_frame c s chan fbuf bad_fcs).2.tone
      = s.tone ++ (nrzi (s.output chan) (frame_bits c fbuf bad_fcs)).map (fun l => (chan, l)) := by
  rw [frame_state_eq]
  simp [set_stuff, emit_tone, reset_count]

theorem frame_sent (c : Collab) (s : State) (chan : Nat) (fbuf : List Byte) (bad_fcs : Int) :
    (ax25_only_hdlc_send_frame c s chan fbuf bad_fcs).2.sent
      = s.sent ++ (frame_bits c fbuf bad_fcs).map (fun b => (chan, b)) := by
  rw [frame_state_eq]
  simp [set_stuff, emit_sent, reset_count]

theorem frame_output (c : Collab) (s : State) (chan : Nat) (fbuf : List Byte) (bad_fcs : Int) :
    (ax25_only_hdlc_send_frame c s chan fbuf bad_fcs).2.output
      = Function.update s.output chan (nrzi_last (s.output chan) (frame_bits c fbuf bad_fcs)) := by
  rw [frame_state_eq]
  simp [set_stuff, emit_output, reset_count]

theorem frame_stuff (c : Collab) (s : State) (chan : Nat) (fbuf : List Byte) (bad_fcs : Int) :
    (ax25_only_hdlc_send_frame c s chan fbuf bad_fcs).2.stuff
      = Function.update s.stuff chan 0 := by
  rw [frame_state_eq]
  simp [set_stuff, emit_stuff, reset_count]

theorem frame_count (c : Collab) (s : State) (chan : Nat) (fbuf : List Byte) (bad_fcs : Int) :
    (ax25_only_hdlc_send_frame c s chan fbuf bad_fcs).2.number_of_bits_sent
      = Function.update s.number_of_bits_sent chan ((frame_bits c fbuf bad_fcs).length : Int) := by
  rw [frame_state_eq]
  simp [set_stuff, emit_count, reset_count]

theorem frame_log (c : Collab) (s : State) (chan : Nat) (fbuf : List Byte) (bad_fcs : Int) :
    (ax25_only_hdlc_send_frame c s chan fbuf bad_fcs).2.log = s.log := by
  rw [frame_state_eq]
  simp [set_stuff, emit_log, reset_count]


/-! ## Facts on the reference notions -/

theorem is_bits_nil : is_bits [] := by
  intro b hb
  simp at hb

theorem is_bits_cons {b : Int} {l : List Int} :
    is_bits (b :: l) ↔ (b = 0 ∨ b = 1) ∧ is_bits l := by
  simp [is_bits]

theorem is_bits_append {a b : List Int} : is_bits (a ++ b) ↔ is_bits a ∧ is_bits b := by
  simp only [is_bits, List.mem_append]
  constructor
  · intro h
    exact ⟨fun x hx => h x (Or.inl hx), fun x hx => h x (Or.inr hx)⟩
  · rintro ⟨h1, h2⟩ x (hx | hx)
    · exact h1 x hx
    · exact h2 x hx

theorem is_bits_lsb_bits (n : Nat) (x : Int) : is_bits (lsb_bits n x) := by
  induction n generalizing x with
  | zero => exact is_bits_nil
  | succ n ih =>
      rw [lsb_bits, is_bits_cons]
      exact ⟨by omega, ih _⟩

theorem is_bits_bytes_bits (l : List Int) : is_bits (bytes_bits l) := by
  induction l with
  | nil => exact is_bits_nil
  | cons x xs ih =>
      have e : bytes_bits (x :: xs) = byte_bits x ++ bytes_bits xs := rfl
      rw [e, is_bits_append]
      exact ⟨is_bits_lsb_bits 8 x, ih⟩

theorem is_bits_flag : is_bits flag_bits := by
  intro b hb
  simp [flag_bits] at hb
  omega

theorem is_bits_stuff_bits (r : Nat) (l : List Int) (h : is_bits l) :
    is_bits (stuff_bits r l) := by
  induction l generalizing r with
  | nil => exact is_bits_nil
  | cons x xs ih =>
      rw [is_bits_cons] at h
      rw [stuff_bits]
      split
      · split
        · rw [is_bits_cons, is_bits_cons]
          exact ⟨Or.inr rfl, Or.inl rfl, ih 0 h.2⟩
        · rw [is_bits_cons]
          exact ⟨Or.inr rfl, ih _ h.2⟩
      · rw [is_bits_cons]
        exact ⟨h.1, ih 0 h.2⟩

theorem nrzi_decode_nrzi (lvl : Int) (bits : List Int) (h : is_bits bits) :
    nrzi_decode lvl (nrzi lvl bits) = bits := by
  induction bits generalizing lvl with
  | nil => rfl
  | cons x xs ih =>
      rw [is_bits_cons] at h
      rw [nrzi, nrzi_decode, ih _ h.2]
      rcases h.1 with hx | hx
      · simp [hx, lnot_ne]
      · simp [hx]

theorem unstuff_stuff_bits (r : Nat) (bits : List Int) (hr : r < 5) (h : is_bits bits) :
    unstuff r (stuff_bits r bits) = bits := by
  induction bits generalizing r with
  | nil => rfl
  | cons x xs ih =>
      rw [is_bits_cons] at h
      have hr5 : r ≠ 5 := by omega
      rcases h.1 with hx | hx
      · subst hx
        simp [stuff_bits, unstuff, hr5, ih 0 (by omega) h.2]
      · subst hx
        by_cases h5 : r + 1 = 5
        · simp [stuff_bits, unstuff, hr5, h5, ih 0 (by omega) h.2]
        · simp [stuff_bits, unstuff, hr5, h5, ih (r + 1) (by omega) h.2]

theorem regroup_byte_bits (x : Int) (rest : List Int) :
    regroup (byte_bits x ++ rest) = x % 256 :: regroup rest := by
  simp only [byte_bits, lsb_bits, List.cons_append, List.nil_append, regroup]
  congr 1
  omega

theorem regroup_bytes_bits (l : List Int) :
    regroup (bytes_bits l) = l.map (fun x => x % 256) := by
  induction l with
  | nil => rfl
  | cons x xs ih =>
      have e : bytes_bits (x :: xs) = byte_bits x ++ bytes_bits xs := rfl
      rw [e, regroup_byte_bits, ih]
      rfl

theorem frame_bits_strip (c : Collab) (fbuf : List Byte) (bad_fcs : Int) :
    List.rdrop ((frame_bits c fbuf bad_fcs).drop 8) 8
      = stuff_bits 0 (bytes_bits (frame_octets c fbuf bad_fcs)) := by
  have h8 : flag_bits.length = 8 := rfl
  unfold frame_bits
  rw [List.append_assoc, List.drop_append_eq_append_drop, h8]
  simp only [List.drop_of_length_le (le_of_eq h8), List.nil_append, Nat.sub_self, List.drop_zero]
  rw [← h8, List.rdrop_append_length]

theorem is_bits_frame_bits (c : Collab) (fbuf : List Byte) (bad_fcs : Int) :
    is_bits (frame_bits c fbuf bad_fcs) := by
  unfold frame_bits
  rw [is_bits_append, is_bits_append]
  exact ⟨⟨is_bits_flag, is_bits_stuff_bits 0 _ (is_bits_bytes_bits _)⟩, is_bits_flag⟩

theorem frame_octets_mod (c : Collab) (fbuf : List Byte) (bad_fcs : Int) :
    (frame_octets c fbuf bad_fcs).map (fun x => x % 256) = frame_octets c fbuf bad_fcs := by
  unfold frame_octets fcs_octets
  rw [List.map_append, List.map_map]
  congr 1
  · apply List.map_congr_left
    intro b _
    have := b.isLt
    simp only [Function.comp]
    omega
  · split <;> simp [land_255_eq]

theorem decode_frame_bits (c : Collab) (fbuf : List Byte) (bad_fcs : Int) (lvl : Int) :
    decode_frame lvl (nrzi lvl (frame_bits c fbuf bad_fcs)) = frame_octets c fbuf bad_fcs := by
  unfold decode_frame
  rw [nrzi_decode_nrzi _ _ (is_bits_frame_bits c fbuf bad_fcs), frame_bits_strip,
    unstuff_stuff_bits 0 _ (by omega) (is_bits_bytes_bits _), regroup_bytes_bits,
    frame_octets_mod]

theorem emitted_levels (pre : List (Nat × Int)) (chan : Nat) (l : List Int) :
    ((pre ++ l.map (fun x => (chan, x))).drop pre.length).map Prod.snd = l := by
  simp [List.map_map, Function.comp]

theorem bytes_bits_append (a b : List Int) :
    bytes_bits (a ++ b) = bytes_bits a ++ bytes_bits b := by
  simp [bytes_bits]

theorem bytes_bits_payload (fbuf : List Byte) :
    bytes_bits (fbuf.map (fun b => (b.val : Int)))
      = (fbuf.map (fun b => byte_bits (b.val : Int))).flatten := by
  unfold bytes_bits
  rw [List.map_map]
  rfl

/-! ## Runs of 1s and occurrences of the flag -/

theorem run_ok_stuff_bits (r : Nat) (bits : List Int) (hr : r < 5) :
    run_ok r (stuff_bits r bits) := by
  induction bits generalizing r with
  | nil => simp [stuff_bits, run_ok]
  | cons x xs ih =>
      rw [stuff_bits]
      split
      · split
        · simp only [run_ok, if_true]
          refine ⟨by omega, ?_⟩
          simp only [show ¬ ((0 : Int) = 1) by omega, if_false]
          exact ih 0 (by omega)
        · simp only [run_ok, if_true]
          exact ⟨by omega, ih (r + 1) (by omega)⟩
      · rename_i hx
        simp only [run_ok, hx, if_false]
        exact ih 0 (by omega)

theorem run_ok_mono (r r' : Nat) (l : List Int) (h : run_ok r l) (hr : r' ≤ r) :
    run_ok r' l := by
  induction l generalizing r r' with
  | nil => trivial
  | cons x xs ih =>
      unfold run_ok at h ⊢
      split
      · rename_i hx
        rw [if_pos hx] at h
        exact ⟨by omega, ih (r + 1) (r' + 1) h.2 (by omega)⟩
      · rename_i hx
        rw [if_neg hx] at h
        exact h

theorem run_ok_tail (r : Nat) (b : Int) (l : List Int) (h : run_ok r (b :: l)) :
    ∃ r', run_ok r' l := by
  unfold run_ok at h
  split at h
  · exact ⟨_, h.2⟩
  · exact ⟨_, h⟩

theorem run_ok_not_six_head (r : Nat) (l : List Int) (h : run_ok r l) :
    ¬ ([1, 1, 1, 1, 1, 1] <+: l) := by
  rintro ⟨t, rfl⟩
  simp [run_ok] at h
  omega

theorem run_ok_not_six (r : Nat) (l : List Int) (h : run_ok r l) :
    ¬ ([1, 1, 1, 1, 1, 1] <:+: l) := by
  induction l generalizing r with
  | nil =>
      intro hi
      have := List.eq_nil_of_infix_nil hi
      simp at this
  | cons x xs ih =>
      intro hi
      rcases List.infix_cons_iff.mp hi with hp | hi'
      · exact run_ok_not_six_head r _ h hp
      · obtain ⟨r', h'⟩ := run_ok_tail r x xs h
        exact ih r' h' hi'

theorem flag_strip_one (l pre post : List Int)
    (h : 1 :: l = pre ++ flag_bits ++ post) :
    ∃ pre', pre = 1 :: pre' ∧ l = pre' ++ flag_bits ++ post := by
  cases pre with
  | nil => simp [flag_bits] at h
  | cons p pre' =>
      simp only [List.cons_append, List.cons.injEq] at h
      exact ⟨pre', by rw [h.1], h.2⟩

theorem flag_not_after_zero (l post : List Int) (h : run_ok 0 l)
    (e : l ++ flag_bits = [1, 1, 1, 1, 1, 1, 0] ++ post) : False := by
  rcases l with _ | ⟨x1, l⟩
  · simp [flag_bits] at e
  rcases l with _ | ⟨x2, l⟩
  · simp [flag_bits] at e
  rcases l with _ | ⟨x3, l⟩
  · simp [flag_bits] at e
  rcases l with _ | ⟨x4, l⟩
  · simp [flag_bits] at e
  rcases l with _ | ⟨x5, l⟩
  · simp [flag_bits] at e
  rcases l with _ | ⟨x6, l⟩
  · simp [flag_bits] at e
  simp only [List.cons_append, List.cons.injEq] at e
  obtain ⟨rfl, rfl, rfl, rfl, rfl, rfl, _⟩ := e
  simp [run_ok] at h

theorem flag_at_end (r : Nat) (l pre post : List Int) (h : run_ok r l)
    (e : l ++ flag_bits = pre ++ flag_bits ++ post) : pre = l ∧ post = [] := by
  induction l generalizing r pre with
  | nil =>
      have hl := congrArg List.length e
      simp only [List.nil_append, List.length_append] at hl
      have h1 : pre = [] := List.length_eq_zero.mp (by omega)
      have h2 : post = [] := List.length_eq_zero.mp (by omega)
      exact ⟨h1, h2⟩
  | cons b bs ih =>
      cases pre with
      | nil =>
          exfalso
          simp only [List.nil_append, List.cons_append, flag_bits, List.cons.injEq] at e
          obtain ⟨rfl, e⟩ := e
          have h0 : run_ok 0 bs := by simpa [run_ok] using h
          exact flag_not_after_zero bs post h0 (by simpa [flag_bits] using e)
      | cons p pre' =>
          simp only [List.cons_append, List.cons.injEq] at e
          obtain ⟨r', h'⟩ := run_ok_tail r b bs h
          obtain ⟨h1, h2⟩ := ih r' pre' h' e.2
          exact ⟨by rw [e.1, h1], h2⟩

theorem flag_occurrences (m pre post : List Int) (h : run_ok 0 m) :
    flag_bits ++ m ++ flag_bits = pre ++ flag_bits ++ post
      ↔ (pre = [] ∧ post = m ++ flag_bits) ∨ (pre = flag_bits ++ m ∧ post = []) := by
  constructor
  · intro e
    cases pre with
    | nil =>
        left
        refine ⟨rfl, ?_⟩
        simp only [List.nil_append, List.append_assoc] at e
        exact (List.append_cancel_left e).symm
    | cons p pre' =>
        right
        have e' : (0 : Int) :: 1 :: 1 :: 1 :: 1 :: 1 :: 1 :: ((0 :: m) ++ flag_bits)
            = p :: (pre' ++ flag_bits ++ post) := by
          simpa [flag_bits] using e
        simp only [List.cons.injEq] at e'
        obtain ⟨hp, e1⟩ := e'
        obtain ⟨q1, rfl, e2⟩ := flag_strip_one _ _ _ e1
        obtain ⟨q2, rfl, e3⟩ := flag_strip_one _ _ _ e2
        obtain ⟨q3, rfl, e4⟩ := flag_strip_one _ _ _ e3
        obtain ⟨q4, rfl, e5⟩ := flag_strip_one _ _ _ e4
        obtain ⟨q5, rfl, e6⟩ := flag_strip_one _ _ _ e5
        obtain ⟨q6, rfl, e7⟩ := flag_strip_one _ _ _ e6
        have h0 : run_ok 0 (0 :: m) := by simpa [run_ok] using h
        obtain ⟨h1, h2⟩ := flag_at_end 0 (0 :: m) q6 post h0 e7
        subst h1 h2 hp
        simp [flag_bits]
  · rintro (⟨rfl, rfl⟩ | ⟨rfl, rfl⟩) <;> simp

/-! ## Normal form of `hdlc_send_flags`, sequences of calls -/

theorem flag_rep_succ (n : Nat) : flag_rep (n + 1) = flag_bits ++ flag_rep n := by
  simp [flag_rep, List.replicate_succ]

theorem flag_rep_length (n : Nat) : (flag_rep n).length = 8 * n := by
  induction n with
  | zero => rfl
  | succ n ih =>
      rw [flag_rep_succ, List.length_append, ih]
      simp [flag_bits]
      omega

theorem send_flags_loop_succ (n : Nat) (s : State) (chan : Nat) :
    send_flags_loop (n + 1) s chan
      = set_stuff (emit s chan (flag_rep (n + 1))) chan 0 := by
  induction n generalizing s with
  | zero =>
      rw [send_flags_loop, send_flags_loop, send_flag_eq]
      simp [flag_rep]
  | succ n ih =>
      rw [send_flags_loop, ih, send_flag_eq, emit_set_stuff, set_stuff_set_stuff,
        flag_rep_succ (n + 1), emit_append]

theorem send_flags_loop_emits (n : Nat) (s : State) (chan : Nat) :
    emits s (send_flags_loop n s chan) chan (flag_rep n) := by
  cases n with
  | zero => simp [emits, send_flags_loop, flag_rep, nrzi, nrzi_last]
  | succ n =>
      rw [send_flags_loop_succ]
      simp [emits, set_stuff, emit_tone, emit_sent, emit_output]

theorem send_flags_loop_count (n : Nat) (s : State) (chan : Nat) :
    (send_flags_loop n s chan).number_of_bits_sent chan
      = s.number_of_bits_sent chan + 8 * (n : Int) := by
  cases n with
  | zero => simp [send_flags_loop]
  | succ n =>
      rw [send_flags_loop_succ]
      simp only [set_stuff, emit_count, Function.update_same, flag_rep_length]
      push_cast
      rfl

theorem flags_emits (c : Collab) (s : State) (chan : Nat) (nflags finish : Int) :
    emits s (hdlc_send_flags c s chan nflags finish).2 chan (flag_rep nflags.toNat) := by
  have h := send_flags_loop_emits nflags.toNat (reset_count s chan) chan
  unfold hdlc_send_flags
  simp only [emits, reset_count] at h ⊢
  split <;> exact h

theorem flags_ret (c : Collab) (s : State) (chan : Nat) (nflags finish : Int) :
    (hdlc_send_flags c s chan nflags finish).1 = 8 * (nflags.toNat : Int) := by
  have h := send_flags_loop_count nflags.toNat (reset_count s chan) chan
  unfold hdlc_send_flags
  simp only [reset_count, Function.update_same, zero_add] at h ⊢
  split <;> exact h

theorem frame_emits (c : Collab) (s : State) (chan : Nat) (fbuf : List Byte) (bad_fcs : Int) :
    emits s (ax25_only_hdlc_send_frame c s chan fbuf bad_fcs).2 chan
      (frame_bits c fbuf bad_fcs) :=
  ⟨frame_tone c s chan fbuf bad_fcs, frame_sent c s chan fbuf bad_fcs,
    frame_output c s chan fbuf bad_fcs⟩

theorem emits_nil_of_eq (s t : State) (chan : Nat) (h1 : t.tone = s.tone)
    (h2 : t.sent = s.sent) (h3 : t.output = s.output) : emits s t chan [] := by
  simp [emits, h1, h2, h3, nrzi, nrzi_last]

theorem emits_trans (s t u : State) (chan : Nat) (a b : List Int)
    (h1 : emits s t chan a) (h2 : emits t u chan b) : emits s u chan (a ++ b) := by
  obtain ⟨a1, a2, a3⟩ := h1
  obtain ⟨b1, b2, b3⟩ := h2
  have hl : t.output chan = nrzi_last (s.output chan) a := by rw [a3]; simp
  refine ⟨?_, ?_, ?_⟩
  · rw [b1, a1, hl, nrzi_append]
    simp
  · rw [b2, a2]
    simp
  · rw [b3, a3]
    simp [nrzi_last_append]

theorem dispatch_disabled (c : Collab) (s : State) (chan : Nat) (fbuf : List Byte)
    (bad_fcs : Int) :
    hdlc_send_frame c s chan fbuf bad_fcs 0 = ax25_only_hdlc_send_frame c s chan fbuf bad_fcs := by
  simp [hdlc_send_frame]

theorem dispatch_success (c : Collab) (s : State) (chan : Nat) (fbuf : List Byte)
    (bad_fcs e : Int) (he : e ≠ 0) (hn : c.fx25_send_frame chan fbuf e > 0) :
    hdlc_send_frame c s chan fbuf bad_fcs e
      = (c.fx25_send_frame chan fbuf e,
          { s with log := s.log ++ [Event.fx25_send_frame chan fbuf e] }) := by
  simp [hdlc_send_frame, he, hn]

theorem dispatch_fallback (c : Collab) (s : State) (chan : Nat) (fbuf : List Byte)
    (bad_fcs e : Int) (he : e ≠ 0) (hn : c.fx25_send_frame chan fbuf e ≤ 0) :
    hdlc_send_frame c s chan fbuf bad_fcs e
      = ax25_only_hdlc_send_frame c
          { s with log := s.log ++ [Event.fx25_send_frame chan fbuf e] ++
              [Event.text_color_set, Event.dw_printf] } chan fbuf bad_fcs := by
  have hn' : ¬ (c.fx25_send_frame chan fbuf e > 0) := by omega
  simp [hdlc_send_frame, he, hn']

theorem dispatch_emits (c : Collab) (s : State) (chan : Nat) (fbuf : List Byte)
    (bad_fcs e : Int) :
    ∃ bits, emits s (hdlc_send_frame c s chan fbuf bad_fcs e).2 chan bits := by
  by_cases he : e = 0
  · subst he
    rw [dispatch_disabled]
    exact ⟨_, frame_emits c s chan fbuf bad_fcs⟩
  · by_cases hn : c.fx25_send_frame chan fbuf e > 0
    · rw [dispatch_success c s chan fbuf bad_fcs e he hn]
      exact ⟨[], emits_nil_of_eq _ _ chan rfl rfl rfl⟩
    · rw [dispatch_fallback c s chan fbuf bad_fcs e he (by omega)]
      obtain ⟨h1, h2, h3⟩ := frame_emits c
        { s with log := s.log ++ [Event.fx25_send_frame chan fbuf e] ++
            [Event.text_color_set, Event.dw_printf] } chan fbuf bad_fcs
      exact ⟨frame_bits c fbuf bad_fcs, h1, h2, h3⟩

theorem run_call_emits (c : Collab) (s : State) (chan : Nat) (k : Call) :
    ∃ bits, emits s (run_call c s chan k) chan bits := by
  cases k with
  | frame fbuf bad_fcs e => exact dispatch_emits c s chan fbuf bad_fcs e
  | flags n f => exact ⟨_, flags_emits c s chan n f⟩

theorem run_calls_emits (c : Collab) (s : State) (chan : Nat) (calls : List Call) :
    ∃ bits, emits s (run_calls c s chan calls) chan bits := by
  induction calls generalizing s with
  | nil => exact ⟨[], emits_nil_of_eq _ _ chan rfl rfl rfl⟩
  | cons k ks ih =>
      obtain ⟨a, ha⟩ := run_call_emits c s chan k
      obtain ⟨b, hb⟩ := ih (run_call c s chan k)
      exact ⟨a ++ b, emits_trans _ _ _ chan a b ha hb⟩

theorem nrzi_consistent_nrzi (lvl : Int) (bits : List Int) :
    nrzi_consistent lvl (nrzi lvl bits) bits := by
  induction bits generalizing lvl with
  | nil => trivial
  | cons x xs ih =>
      rw [nrzi, nrzi_consistent]
      refine ⟨?_, ih _⟩
      by_cases hx : x = 0
      · simp [hx, lnot_ne]
      · simp [hx]

/-! ## Lengths -/

theorem bytes_bits_length (l : List Int) : (bytes_bits l).length = 8 * l.length := by
  induction l with
  | nil => rfl
  | cons x xs ih =>
      have e : bytes_bits (x :: xs) = byte_bits x ++ bytes_bits xs := rfl
      rw [e, List.length_append, ih]
      simp [byte_bits, lsb_bits]
      omega

theorem frame_octets_length (c : Collab) (fbuf : List Byte) (bad_fcs : Int) :
    (frame_octets c fbuf bad_fcs).length = fbuf.length + 2 := by
  unfold frame_octets fcs_octets
  split <;> simp

theorem frame_bits_length (c : Collab) (fbuf : List Byte) (bad_fcs : Int) :
    (frame_bits c fbuf bad_fcs).length
      = 8 + 8 * (fbuf.length + 2)
          + stuff_count 0 (bytes_bits (frame_octets c fbuf bad_fcs)) + 8 := by
  unfold frame_bits
  rw [List.length_append, List.length_append, stuff_bits_length, bytes_bits_length,
    frame_octets_length]
  simp only [flag_bits, List.length_cons, List.length_nil]
  omega

/-! ## The check octets -/

theorem bad_fcs_low (fcs : Int) :
    Int.land (Int.not fcs) 0xff = 255 - Int.land fcs 0xff := by
  rw [land_255_eq, land_255_eq, not_eq]
  omega

theorem bad_fcs_high (fcs : Int) :
    Int.land (Int.shiftRight (Int.not fcs) 8) 0xff
      = 255 - Int.land (Int.shiftRight fcs 8) 0xff := by
  rw [land_255_eq, land_255_eq, shiftRight_8_eq, shiftRight_8_eq, not_eq]
  omega

/-! ## Sections of a frame -/

theorem frame_bits_split (c : Collab) (fbuf : List Byte) (bad_fcs : Int) :
    frame_bits c fbuf bad_fcs
      = (flag_bits ++ stuff_bits 0 (payload_bits fbuf)) ++ check_bits c fbuf bad_fcs
          ++ flag_bits := by
  unfold frame_bits frame_octets check_bits payload_bits
  rw [bytes_bits_append, stuff_bits_append]
  simp only [List.append_assoc]

theorem rtake_append_right (a b : List Int) (n : Nat) (h : b.length = n) :
    List.rtake (a ++ b) n = b := by
  subst h
  unfold List.rtake
  rw [List.length_append, Nat.add_sub_cancel, List.drop_left]

theorem frame_new_levels (c : Collab) (s : State) (chan : Nat) (fbuf : List Byte)
    (bad_fcs : Int) :
    new_levels s (ax25_only_hdlc_send_frame c s chan fbuf bad_fcs).2
      = nrzi (s.output chan) (frame_bits c fbuf bad_fcs) := by
  unfold new_levels
  rw [frame_tone, emitted_levels]

theorem frame_new_bits (c : Collab) (s : State) (chan : Nat) (fbuf : List Byte)
    (bad_fcs : Int) :
    new_bits s (ax25_only_hdlc_send_frame c s chan fbuf bad_fcs).2
      = frame_bits c fbuf bad_fcs := by
  unfold new_bits
  rw [frame_sent, emitted_levels]

theorem lnot_01 (x : Int) : lnot x = 0 ∨ lnot x = 1 := by
  unfold lnot
  split
  · exact Or.inr rfl
  · exact Or.inl rfl

theorem nrzi_last_01 (lvl : Int) (bits : List Int) (h : lvl = 0 ∨ lvl = 1) :
    nrzi_last lvl bits = 0 ∨ nrzi_last lvl bits = 1 := by
  induction bits generalizing lvl with
  | nil => exact h
  | cons x xs ih =>
      rw [nrzi_last]
      split
      · exact ih _ (lnot_01 lvl)
      · exact ih _ h

theorem nrzi_last_flag_01 (lvl : Int) (rest : List Int) :
    nrzi_last lvl (flag_bits ++ rest) = 0 ∨ nrzi_last lvl (flag_bits ++ rest) = 1 := by
  rw [nrzi_last_append]
  apply nrzi_last_01
  simp only [flag_bits, nrzi_last]
  exact lnot_01 _

theorem nrzi_flag_01 (a b : Int) (ha : a = 0 ∨ a = 1) (hb : b = 0 ∨ b = 1) :
    nrzi a flag_bits = nrzi b flag_bits
      ∨ nrzi a flag_bits = (nrzi b flag_bits).map lnot := by
  rcases ha with rfl | rfl <;> rcases hb with rfl | rfl
  · exact Or.inl rfl
  · right
    decide
  · right
    decide
  · exact Or.inl rfl

theorem frame_levels_split (c : Collab) (fbuf : List Byte) (bad_fcs : Int) (lvl : Int) :
    nrzi lvl (frame_bits c fbuf bad_fcs)
      = nrzi lvl (flag_bits ++ stuff_bits 0 (payload_bits fbuf))
          ++ nrzi (nrzi_last lvl (flag_bits ++ stuff_bits 0 (payload_bits fbuf)))
              (check_bits c fbuf bad_fcs)
          ++ nrzi (nrzi_last lvl
                ((flag_bits ++ stuff_bits 0 (payload_bits fbuf)) ++ check_bits c fbuf bad_fcs))
              flag_bits := by
  rw [frame_bits_split, nrzi_append, nrzi_append]

/-! ## The frame encoder: round trip, layout, stuffing -/

/-- C1: for every state, payload and check value, with `bad_fcs` false, the
receiver's decoding of the levels forwarded during one
`ax25_only_hdlc_send_frame` call (NRZI against the previous level, both
flags dropped, destuffed, regrouped 8 bits at a time least significant
first) is the payload followed by `fcs & 0xff` and `(fcs >> 8) & 0xff`. -/
theorem frame_round_trip (c : Collab) (s : State) (chan : Nat) (fbuf : List Byte) :
    decode_frame (s.output chan)
        (new_levels s (ax25_only_hdlc_send_frame c s chan fbuf 0).2)
      = fbuf.map (fun b => (b.val : Int))
          ++ [Int.land ((c.fcs_calc fbuf).val : Int) 0xff,
              Int.land (Int.shiftRight ((c.fcs_calc fbuf).val : Int) 8) 0xff] := by
  rw [frame_new_levels, decode_frame_bits]
  simp [frame_octets, fcs_octets]

/-- C2: with `bad_fcs` false the logical bits handed to `send_bit` during one
`ax25_only_hdlc_send_frame` call are the flag, then the stuffed form of the
bits of the payload octets, of the low and of the high octet of the check
value, then the flag, and nothing else. -/
theorem frame_layout (c : Collab) (s : State) (chan : Nat) (fbuf : List Byte) :
    (ax25_only_hdlc_send_frame c s chan fbuf 0).2.sent
      = s.sent
          ++ (flag_bits
              ++ stuff_bits 0
                  ((fbuf.map (fun b => byte_bits (b.val : Int))).flatten
                    ++ byte_bits (Int.land ((c.fcs_calc fbuf).val : Int) 0xff)
                    ++ byte_bits (Int.land (Int.shiftRight ((c.fcs_calc fbuf).val : Int) 8) 0xff))
              ++ flag_bits).map (fun b => (chan, b)) := by
  rw [frame_sent, frame_bits, frame_octets, bytes_bits_append, bytes_bits_payload]
  simp [fcs_octets, bytes_bits, List.append_assoc]

/-- C3: octets sent through `send_data` on a channel whose `stuff` is 0 come
out as the reference stuffing of their concatenated bits, least significant
bit first: the count of 1s carries from one octet to the next. -/
theorem send_data_stuffing (s : State) (chan : Nat) (fbuf : List Byte)
    (h : s.stuff chan = 0) :
    (send_data_bytes s chan fbuf).sent
      = s.sent
          ++ (stuff_bits 0 ((fbuf.map (fun b => byte_bits (b.val : Int))).flatten)).map
              (fun b => (chan, b)) := by
  rw [send_data_bytes_eq_list, send_data_list_eq _ s chan 0 (by simpa using h),
    bytes_bits_payload]
  simp [set_stuff, emit_sent]

/-- C3 at the octets `0xE0, 0x03`, whose run of five 1s begins in the first
octet and ends in the second: the 0 is inserted right after the fifth 1. -/
theorem send_data_stuffing_witness :
    State.init.stuff 0 = 0 ∧
    (send_data_bytes State.init 0 [0xE0, 0x03]).sent
      = [(0, 0), (0, 0), (0, 0), (0, 0), (0, 0), (0, 1), (0, 1), (0, 1),
          (0, 1), (0, 1), (0, 0), (0, 0), (0, 0), (0, 0), (0, 0), (0, 0), (0, 0)] :=
  ⟨rfl, (send_data_stuffing State.init 0 [0xE0, 0x03] rfl).trans (by decide)⟩

/-- C4: in the logical bit stream of one `ax25_only_hdlc_send_frame` call,
whatever the payload, check value and `bad_fcs`, the section between the two
flags has no six consecutive 1s, and the flag pattern occurs in the stream
at exactly two places, as its first 8 bits and as its last 8 bits. -/
theorem frame_flags_only_at_ends (c : Collab) (s : State) (chan : Nat) (fbuf : List Byte)
    (bad_fcs : Int) :
    ∃ middle : List Int,
      new_bits s (ax25_only_hdlc_send_frame c s chan fbuf bad_fcs).2
          = flag_bits ++ middle ++ flag_bits
      ∧ ¬ ([1, 1, 1, 1, 1, 1] <:+: middle)
      ∧ ∀ pre post : List Int,
          new_bits s (ax25_only_hdlc_send_frame c s chan fbuf bad_fcs).2
              = pre ++ flag_bits ++ post
            ↔ (pre = [] ∧ post = middle ++ flag_bits)
              ∨ (pre = flag_bits ++ middle ∧ post = []) := by
  have hok := run_ok_stuff_bits 0 (bytes_bits (frame_octets c fbuf bad_fcs)) (by omega)
  refine ⟨stuff_bits 0 (bytes_bits (frame_octets c fbuf bad_fcs)), ?_, ?_, ?_⟩
  · rw [frame_new_bits, frame_bits]
  · exact run_ok_not_six 0 _ hok
  · intro pre post
    rw [frame_new_bits, frame_bits]
    exact flag_occurrences _ pre post hok

/-! ## Line coding and flags -/

/-- C5: over any sequence of `hdlc_send_frame` and `hdlc_send_flags` calls on
one channel, each level forwarded to the tone consumer differs from the
level forwarded just before it (the stored `output[chan]` for the first one)
if and only if the bit handed to `send_bit` is 0; this holds across the
calls, none of which resets the level. -/
theorem nrzi_continuous (c : Collab) (s : State) (chan : Nat) (calls : List Call) :
    nrzi_consistent (s.output chan)
      (new_levels s (run_calls c s chan calls))
      (new_bits s (run_calls c s chan calls)) := by
  obtain ⟨bits, h1, h2, _⟩ := run_calls_emits c s chan calls
  unfold new_levels new_bits
  rw [h1, h2, emitted_levels, emitted_levels]
  exact nrzi_consistent_nrzi _ _

/-- C8: with `bad_fcs` set, the two octets handed to `send_data` after the
payload are `255 - (fcs & 0xff)` and then `255 - ((fcs >> 8) & 0xff)`, which
is what `(~fcs) & 0xff` and `((~fcs) >> 8) & 0xff` come to on the negative
`~fcs`; each differs from the octet of the correct check sequence. -/
theorem bad_fcs_octets (c : Collab) (s : State) (chan : Nat) (fbuf : List Byte)
    (bad_fcs : Int) (h : bad_fcs ≠ 0) :
    (ax25_only_hdlc_send_frame c s chan fbuf bad_fcs).2
        = send_control
            (send_data
              (send_data
                (send_data_bytes (send_control (reset_count s chan) chan 0x7e) chan fbuf)
                chan (255 - Int.land ((c.fcs_calc fbuf).val : Int) 0xff))
              chan (255 - Int.land (Int.shiftRight ((c.fcs_calc fbuf).val : Int) 8) 0xff))
            chan 0x7e
    ∧ Int.land (Int.not ((c.fcs_calc fbuf).val : Int)) 0xff
        = 255 - Int.land ((c.fcs_calc fbuf).val : Int) 0xff
    ∧ Int.land (Int.shiftRight (Int.not ((c.fcs_calc fbuf).val : Int)) 8) 0xff
        = 255 - Int.land (Int.shiftRight ((c.fcs_calc fbuf).val : Int) 8) 0xff
    ∧ 255 - Int.land ((c.fcs_calc fbuf).val : Int) 0xff
        ≠ Int.land ((c.fcs_calc fbuf).val : Int) 0xff
    ∧ 255 - Int.land (Int.shiftRight ((c.fcs_calc fbuf).val : Int) 8) 0xff
        ≠ Int.land (Int.shiftRight ((c.fcs_calc fbuf).val : Int) 8) 0xff := by
  refine ⟨?_, bad_fcs_low _, bad_fcs_high _, ?_, ?_⟩
  · rw [← bad_fcs_low, ← bad_fcs_high]
    simp only [ax25_only_hdlc_send_frame, reset_count, h, ne_eq, not_false_eq_true, if_true]
  · rw [land_255_eq]
    omega
  · rw [land_255_eq]
    omega

/-- C8 at the check value `0xD2A0`, empty payload, `bad_fcs = 1`: the octets
handed to `send_data` are `0x5F` and `0x2D`. -/
theorem bad_fcs_octets_witness :
    (1 : Int) ≠ 0 ∧
    (ax25_only_hdlc_send_frame (Collab.const 0xD2A0 0) State.init 0 [] 1).2
        = send_control
            (send_data
              (send_data
                (send_data_bytes (send_control (reset_count State.init 0) 0 0x7e) 0 [])
                0 (255 - Int.land (((Collab.const 0xD2A0 0).fcs_calc []).val : Int) 0xff))
              0 (255 - Int.land
                  (Int.shiftRight (((Collab.const 0xD2A0 0).fcs_calc []).val : Int) 8) 0xff))
            0 0x7e
    ∧ Int.land (Int.not (((Collab.const 0xD2A0 0).fcs_calc []).val : Int)) 0xff
        = 255 - Int.land (((Collab.const 0xD2A0 0).fcs_calc []).val : Int) 0xff
    ∧ Int.land (Int.shiftRight (Int.not (((Collab.const 0xD2A0 0).fcs_calc []).val : Int)) 8)
          0xff
        = 255 - Int.land
            (Int.shiftRight (((Collab.const 0xD2A0 0).fcs_calc []).val : Int) 8) 0xff
    ∧ 255 - Int.land (((Collab.const 0xD2A0 0).fcs_calc []).val : Int) 0xff
        ≠ Int.land (((Collab.const 0xD2A0 0).fcs_calc []).val : Int) 0xff
    ∧ 255 - Int.land (Int.shiftRight (((Collab.const 0xD2A0 0).fcs_calc []).val : Int) 8) 0xff
        ≠ Int.land (Int.shiftRight (((Collab.const 0xD2A0 0).fcs_calc []).val : Int) 8) 0xff :=
  ⟨by decide, bad_fcs_octets (Collab.const 0xD2A0 0) State.init 0 [] 1 (by decide)⟩

/-! ## Deliberate corruption of the check sequence -/

/-- C9, as stated, fails: with an empty payload and the check value 0, from
the state at program start, the last 8 levels forwarded (the end flag) are
`1,1,1,1,1,1,1,0` with `bad_fcs` clear and `0,0,0,0,0,0,0,1` with `bad_fcs`
set, because the complemented check octets `0xFF, 0xFF` take three stuffing
bits, each of which toggles the line. -/
theorem bad_fcs_end_flag_levels_differ :
    List.rtake
        (new_levels State.init
          (ax25_only_hdlc_send_frame (Collab.const 0 0) State.init 0 [] 0).2) 8
      = [1, 1, 1, 1, 1, 1, 1, 0]
    ∧ List.rtake
        (new_levels State.init
          (ax25_only_hdlc_send_frame (Collab.const 0 0) State.init 0 [] 1).2) 8
      = [0, 0, 0, 0, 0, 0, 0, 1]
    ∧ List.rtake
        (new_levels State.init
          (ax25_only_hdlc_send_frame (Collab.const 0 0) State.init 0 [] 1).2) 8
      ≠ List.rtake
        (new_levels State.init
          (ax25_only_hdlc_send_frame (Collab.const 0 0) State.init 0 [] 0).2) 8 := by
  have e0 : frame_bits (Collab.const 0 0) [] 0
      = [0, 1, 1, 1, 1, 1, 1, 0, 0, 0, 0, 0, 0, 0, 0, 0, 0, 0, 0, 0, 0, 0, 0, 0,
          0, 1, 1, 1, 1, 1, 1, 0] := by decide
  have e1 : frame_bits (Collab.const 0 0) [] 1
      = [0, 1, 1, 1, 1, 1, 1, 0, 1, 1, 1, 1, 1, 0, 1, 1, 1, 1, 1, 0, 1, 1, 1, 1, 1, 0, 1,
          0, 1, 1, 1, 1, 1, 1, 0] := by
    simp only [frame_bits, frame_octets, fcs_octets, bad_fcs_low, bad_fcs_high, land_255_eq,
      shiftRight_8_eq]
    decide
  rw [frame_new_levels, frame_new_levels, e0, e1]
  decide

/-- C9, amended: whatever `bad_fcs` is, the levels forwarded for the start
flag and for the stuffed payload bits are those forwarded with `bad_fcs`
clear, the bits handed to `send_bit` for the start flag, the stuffed payload
and the end flag are the same, and the 8 levels of the end flag are either
the same as with `bad_fcs` clear or their inverse. -/
theorem bad_fcs_other_bits (c : Collab) (s : State) (chan : Nat) (fbuf : List Byte)
    (bad_fcs : Int) :
    (new_levels s (ax25_only_hdlc_send_frame c s chan fbuf bad_fcs).2).take
        (8 + (stuff_bits 0 (payload_bits fbuf)).length)
      = (new_levels s (ax25_only_hdlc_send_frame c s chan fbuf 0).2).take
          (8 + (stuff_bits 0 (payload_bits fbuf)).length)
    ∧ (new_bits s (ax25_only_hdlc_send_frame c s chan fbuf bad_fcs).2).take
        (8 + (stuff_bits 0 (payload_bits fbuf)).length)
      = flag_bits ++ stuff_bits 0 (payload_bits fbuf)
    ∧ (new_bits s (ax25_only_hdlc_send_frame c s chan fbuf 0).2).take
        (8 + (stuff_bits 0 (payload_bits fbuf)).length)
      = flag_bits ++ stuff_bits 0 (payload_bits fbuf)
    ∧ List.rtake (new_bits s (ax25_only_hdlc_send_frame c s chan fbuf bad_fcs).2) 8 = flag_bits
    ∧ List.rtake (new_bits s (ax25_only_hdlc_send_frame c s chan fbuf 0).2) 8 = flag_bits
    ∧ (List.rtake (new_levels s (ax25_only_hdlc_send_frame c s chan fbuf bad_fcs).2) 8
          = List.rtake (new_levels s (ax25_only_hdlc_send_frame c s chan fbuf 0).2) 8
        ∨ List.rtake (new_levels s (ax25_only_hdlc_send_frame c s chan fbuf bad_fcs).2) 8
          = (List.rtake (new_levels s (ax25_only_hdlc_send_frame c s chan fbuf 0).2) 8).map
              lnot) := by
  have hlen : (flag_bits ++ stuff_bits 0 (payload_bits fbuf)).length
      = 8 + (stuff_bits 0 (payload_bits fbuf)).length := by
    simp [flag_bits]
    omega
  have hlen2 : (nrzi (s.output chan) (flag_bits ++ stuff_bits 0 (payload_bits fbuf))).length
      = 8 + (stuff_bits 0 (payload_bits fbuf)).length := by
    rw [nrzi_length, hlen]
  have htake : ∀ b : Int,
      (nrzi (s.output chan) (frame_bits c fbuf b)).take
          (8 + (stuff_bits 0 (payload_bits fbuf)).length)
        = nrzi (s.output chan) (flag_bits ++ stuff_bits 0 (payload_bits fbuf)) := by
    intro b
    rw [frame_levels_split, List.append_assoc]
    exact List.take_left' hlen2
  have hbits : ∀ b : Int,
      (frame_bits c fbuf b).take (8 + (stuff_bits 0 (payload_bits fbuf)).length)
        = flag_bits ++ stuff_bits 0 (payload_bits fbuf) := by
    intro b
    rw [frame_bits_split, List.append_assoc]
    exact List.take_left' hlen
  have hlast : ∀ b : Int,
      List.rtake (nrzi (s.output chan) (frame_bits c fbuf b)) 8
        = nrzi (nrzi_last (s.output chan)
              ((flag_bits ++ stuff_bits 0 (payload_bits fbuf)) ++ check_bits c fbuf b))
            flag_bits := by
    intro b
    rw [frame_levels_split]
    exact rtake_append_right _ _ 8 (by rw [nrzi_length]; rfl)
  have hlastb : ∀ b : Int, List.rtake (frame_bits c fbuf b) 8 = flag_bits := by
    intro b
    rw [frame_bits_split]
    exact rtake_append_right _ _ 8 rfl
  simp only [frame_new_levels, frame_new_bits]
  refine ⟨?_, hbits _, hbits _, hlastb _, hlastb _, ?_⟩
  · rw [htake, htake]
  · rw [hlast, hlast]
    apply nrzi_flag_01
    · rw [List.append_assoc]
      exact nrzi_last_flag_01 _ _
    · rw [List.append_assoc]
      exact nrzi_last_flag_01 _ _

/-! ## The dispatcher -/

/-- C10: if encapsulation is disabled, or it is enabled and the encapsulator
returns a value `≤ 0`, `hdlc_send_frame` returns what
`ax25_only_hdlc_send_frame` returns on the same arguments, forwards the same
levels, hands the same bits to `send_bit` and leaves the same counters,
stuffing runs and line levels; when it is disabled the two results are equal
and no collaborator call is recorded, so the encapsulator is not invoked. -/
theorem dispatcher_fallback (c : Collab) (s : State) (chan : Nat) (fbuf : List Byte)
    (bad_fcs e : Int) (h : e = 0 ∨ c.fx25_send_frame chan fbuf e ≤ 0) :
    (hdlc_send_frame c s chan fbuf bad_fcs e).1
        = (ax25_only_hdlc_send_frame c s chan fbuf bad_fcs).1
    ∧ (hdlc_send_frame c s chan fbuf bad_fcs e).2.tone
        = (ax25_only_hdlc_send_frame c s chan fbuf bad_fcs).2.tone
    ∧ (hdlc_send_frame c s chan fbuf bad_fcs e).2.sent
        = (ax25_only_hdlc_send_frame c s chan fbuf bad_fcs).2.sent
    ∧ (hdlc_send_frame c s chan fbuf bad_fcs e).2.number_of_bits_sent
        = (ax25_only_hdlc_send_frame c s chan fbuf bad_fcs).2.number_of_bits_sent
    ∧ (hdlc_send_frame c s chan fbuf bad_fcs e).2.stuff
        = (ax25_only_hdlc_send_frame c s chan fbuf bad_fcs).2.stuff
    ∧ (hdlc_send_frame c s chan fbuf bad_fcs e).2.output
        = (ax25_only_hdlc_send_frame c s chan fbuf bad_fcs).2.output
    ∧ (e = 0 →
        hdlc_send_frame c s chan fbuf bad_fcs e = ax25_only_hdlc_send_frame c s chan fbuf bad_fcs
        ∧ (hdlc_send_frame c s chan fbuf bad_fcs e).2.log = s.log) := by
  by_cases he : e = 0
  · subst he
    rw [dispatch_disabled]
    refine ⟨rfl, rfl, rfl, rfl, rfl, rfl, fun _ => ⟨rfl, frame_log c s chan fbuf bad_fcs⟩⟩
  · have hn : c.fx25_send_frame chan fbuf e ≤ 0 := by
      rcases h with h | h
      · exact absurd h he
      · exact h
    rw [dispatch_fallback c s chan fbuf bad_fcs e he hn]
    refine ⟨?_, ?_, ?_, ?_, ?_, ?_, fun h0 => absurd h0 he⟩
    · rw [frame_ret_eq, frame_ret_eq]
    · rw [frame_tone, frame_tone]
    · rw [frame_sent, frame_sent]
    · rw [frame_count, frame_count]
    · rw [frame_stuff, frame_stuff]
    · rw [frame_output, frame_output]

/-- C10 with encapsulation enabled and an encapsulator that returns 0. -/
theorem dispatcher_fallback_witness :
    ((1 : Int) = 0 ∨ (Collab.const 0xD2A0 0).fx25_send_frame 0 [0x03, 0xF0] 1 ≤ 0)
    ∧ (hdlc_send_frame (Collab.const 0xD2A0 0) State.init 0 [0x03, 0xF0] 0 1).1
        = (ax25_only_hdlc_send_frame (Collab.const 0xD2A0 0) State.init 0 [0x03, 0xF0] 0).1
    ∧ (hdlc_send_frame (Collab.const 0xD2A0 0) State.init 0 [0x03, 0xF0] 0 1).2.tone
        = (ax25_only_hdlc_send_frame (Collab.const 0xD2A0 0) State.init 0 [0x03, 0xF0] 0).2.tone
    ∧ (hdlc_send_frame (Collab.const 0xD2A0 0) State.init 0 [0x03, 0xF0] 0 1).2.sent
        = (ax25_only_hdlc_send_frame (Collab.const 0xD2A0 0) State.init 0 [0x03, 0xF0] 0).2.sent
    ∧ (hdlc_send_frame (Collab.const 0xD2A0 0) State.init 0 [0x03, 0xF0] 0 1).2.number_of_bits_sent
        = (ax25_only_hdlc_send_frame (Collab.const 0xD2A0 0) State.init 0 [0x03, 0xF0] 0).2.number_of_bits_sent
    ∧ (hdlc_send_frame (Collab.const 0xD2A0 0) State.init 0 [0x03, 0xF0] 0 1).2.stuff
        = (ax25_only_hdlc_send_frame (Collab.const 0xD2A0 0) State.init 0 [0x03, 0xF0] 0).2.stuff
    ∧ (hdlc_send_frame (Collab.const 0xD2A0 0) State.init 0 [0x03, 0xF0] 0 1).2.output
        = (ax25_only_hdlc_send_frame (Collab.const 0xD2A0 0) State.init 0 [0x03, 0xF0] 0).2.output
    ∧ ((1 : Int) = 0 →
        hdlc_send_frame (Collab.const 0xD2A0 0) State.init 0 [0x03, 0xF0] 0 1
          = ax25_only_hdlc_send_frame (Collab.const 0xD2A0 0) State.init 0 [0x03, 0xF0] 0
        ∧ (hdlc_send_frame (Collab.const 0xD2A0 0) State.init 0 [0x03, 0xF0] 0 1).2.log
          = State.init.log) :=
  ⟨Or.inr (by decide),
    dispatcher_fallback (Collab.const 0xD2A0 0) State.init 0 [0x03, 0xF0] 0 1
      (Or.inr (by decide))⟩

/-! ## Further normal forms -/

theorem send_control_new_bits (s : State) (chan : Nat) (x : Int) :
    new_bits s (send_control s chan x) = byte_bits x := by
  unfold new_bits
  rw [send_control_eq]
  simp only [set_stuff, emit_sent]
  exact emitted_levels _ _ _

theorem send_control_stuff (s : State) (chan : Nat) (x : Int) :
    (send_control s chan x).stuff = Function.update s.stuff chan 0 := by
  rw [send_control_eq]
  simp [set_stuff, emit_stuff]

theorem send_control_count (s : State) (chan : Nat) (x : Int) :
    (send_control s chan x).number_of_bits_sent
      = Function.update s.number_of_bits_sent chan (s.number_of_bits_sent chan + 8) := by
  rw [send_control_eq]
  simp [set_stuff, emit_count, byte_bits, lsb_bits]

theorem send_data_new_bits (s : State) (chan : Nat) (x : Int) (r : Nat)
    (h : s.stuff chan = (r : Int)) :
    new_bits s (send_data s chan x) = stuff_bits r (byte_bits x) := by
  unfold new_bits
  rw [send_data_eq s chan x r h]
  simp only [set_stuff, emit_sent]
  exact emitted_levels _ _ _

theorem flags_state (c : Collab) (s : State) (chan : Nat) (nflags finish : Int) :
    (hdlc_send_flags c s chan nflags finish).2
      = if finish ≠ 0 then
          { send_flags_loop nflags.toNat (reset_count s chan) chan with
            log := (send_flags_loop nflags.toNat (reset_count s chan) chan).log
              ++ [Event.audio_flush (c.ACHAN2ADEV chan)] }
        else send_flags_loop nflags.toNat (reset_count s chan) chan := by
  unfold hdlc_send_flags reset_count
  split <;> rfl

theorem ones_cons (r : Nat) (bs : List Int) :
    List.replicate r (1 : Int) ++ 1 :: bs = List.replicate (r + 1) (1 : Int) ++ bs := by
  rw [List.replicate_succ']
  simp

theorem stuff_count_zero_of_no_five (r : Nat) (bits : List Int)
    (h : ¬ (List.replicate 5 (1 : Int) <:+: List.replicate r (1 : Int) ++ bits)) :
    stuff_count r bits = 0 := by
  induction bits generalizing r with
  | nil => rfl
  | cons x xs ih =>
      simp only [stuff_count]
      split
      · rename_i hx
        subst hx
        rw [ones_cons] at h
        split
        · rename_i h5
          exfalso
          apply h
          rw [h5]
          exact ⟨[], xs, by simp⟩
        · exact ih (r + 1) h
      · apply ih 0
        intro hi
        apply h
        have h1 : xs <:+ List.replicate r (1 : Int) ++ x :: xs :=
          ⟨List.replicate r (1 : Int) ++ [x], by simp⟩
        simp only [List.replicate_zero, List.nil_append] at hi
        exact hi.trans h1.isInfix

theorem frame_ret_count (c : Collab) (s : State) (chan : Nat) (fbuf : List Byte)
    (bad_fcs : Int) :
    (ax25_only_hdlc_send_frame c s chan fbuf bad_fcs).1
      = 8 * ((fbuf.length : Int) + 4)
          + (stuff_count 0 (bytes_bits (frame_octets c fbuf bad_fcs)) : Int) := by
  rw [frame_ret_eq, frame_bits_length]
  push_cast
  omega

/-! ## Polarity -/

theorem nrzi_lnot (lvl : Int) (bits : List Int) :
    nrzi (lnot lvl) bits = (nrzi lvl bits).map lnot := by
  induction bits generalizing lvl with
  | nil => rfl
  | cons x xs ih =>
      simp only [nrzi, List.map_cons]
      split
      · rw [ih]
      · rw [ih]

theorem nrzi_01 (lvl : Int) (bits : List Int) (h : lvl = 0 ∨ lvl = 1) :
    ∀ l ∈ nrzi lvl bits, l = 0 ∨ l = 1 := by
  induction bits generalizing lvl with
  | nil =>
      intro l hl
      simp [nrzi] at hl
  | cons x xs ih =>
      intro l hl
      simp only [nrzi, List.mem_cons] at hl
      split at hl
      · rcases hl with hl | hl
        · rw [hl]
          exact lnot_01 lvl
        · exact ih _ (lnot_01 lvl) l hl
      · rcases hl with hl | hl
        · rw [hl]
          exact h
        · exact ih _ h l hl

theorem nrzi_zero_first_01 (lvl : Int) (bits : List Int) :
    ∀ l ∈ nrzi lvl (0 :: bits), l = 0 ∨ l = 1 := by
  intro l hl
  simp only [nrzi, if_true, List.mem_cons] at hl
  rcases hl with hl | hl
  · rw [hl]
    exact lnot_01 lvl
  · exact nrzi_01 _ _ (lnot_01 lvl) l hl

theorem is_bits_flag_rep (n : Nat) : is_bits (flag_rep n) := by
  induction n with
  | zero => exact is_bits_nil
  | succ n ih =>
      rw [flag_rep_succ, is_bits_append]
      exact ⟨is_bits_flag, ih⟩

theorem flags_new_levels (c : Collab) (s : State) (chan : Nat) (nflags finish : Int) :
    new_levels s (hdlc_send_flags c s chan nflags finish).2
      = nrzi (s.output chan) (flag_rep nflags.toNat) := by
  unfold new_levels
  rw [(flags_emits c s chan nflags finish).1, emitted_levels]

theorem flags_new_bits (c : Collab) (s : State) (chan : Nat) (nflags finish : Int) :
    new_bits s (hdlc_send_flags c s chan nflags finish).2 = flag_rep nflags.toNat := by
  unfold new_bits
  rw [(flags_emits c s chan nflags finish).2.1, emitted_levels]

theorem send_flags_loop_stuff (n : Nat) (s : State) (chan : Nat) :
    (send_flags_loop n s chan).stuff
      = if n = 0 then s.stuff else Function.update s.stuff chan 0 := by
  cases n with
  | zero => rfl
  | succ n =>
      rw [send_flags_loop_succ]
      simp [set_stuff, emit_stuff]

theorem flags_stuff (c : Collab) (s : State) (chan : Nat) (nflags finish : Int) :
    (hdlc_send_flags c s chan nflags finish).2.stuff
      = if nflags.toNat = 0 then s.stuff else Function.update s.stuff chan 0 := by
  have h := send_flags_loop_stuff nflags.toNat (reset_count s chan) chan
  rw [flags_state]
  split <;> exact h

theorem send_flags_loop_count_all (n : Nat) (s : State) (chan : Nat) :
    (send_flags_loop n s chan).number_of_bits_sent
      = Function.update s.number_of_bits_sent chan
          (s.number_of_bits_sent chan + 8 * (n : Int)) := by
  cases n with
  | zero => simp [send_flags_loop]
  | succ n =>
      rw [send_flags_loop_succ]
      simp only [set_stuff, emit_count, flag_rep_length]
      congr 1

theorem flags_count (c : Collab) (s : State) (chan : Nat) (nflags finish : Int) :
    (hdlc_send_flags c s chan nflags finish).2.number_of_bits_sent
      = Function.update s.number_of_bits_sent chan (8 * (nflags.toNat : Int)) := by
  have h := send_flags_loop_count_all nflags.toNat (reset_count s chan) chan
  simp only [reset_count, Function.update_same, Function.update_idem, zero_add] at h
  rw [flags_state]
  split <;> exact h

theorem flags_output (c : Collab) (s : State) (chan : Nat) (nflags finish : Int) :
    (hdlc_send_flags c s chan nflags finish).2.output
      = Function.update s.output chan (nrzi_last (s.output chan) (flag_rep nflags.toNat)) :=
  (flags_emits c s chan nflags finish).2.2

theorem nrzi_last_count (lvl : Int) (bits : List Int) :
    nrzi_last lvl bits = lnot^[bits.count 0] lvl := by
  induction bits generalizing lvl with
  | nil => rfl
  | cons x xs ih =>
      rw [nrzi_last, ih]
      by_cases hx : x = 0
      · subst hx
        simp [List.count_cons, Function.iterate_succ_apply]
      · have hx2 : ¬ ((x == 0) = true) := by simpa using hx
        simp [List.count_cons, hx, hx2]

theorem lnot_lnot (lvl : Int) (h : lvl = 0 ∨ lvl = 1) : lnot (lnot lvl) = lvl := by
  rcases h with rfl | rfl <;> decide

theorem nrzi_last_flag_rep (lvl : Int) (n : Nat) (h : lvl = 0 ∨ lvl = 1) :
    nrzi_last lvl (flag_rep n) = lvl := by
  induction n with
  | zero => rfl
  | succ n ih =>
      rw [flag_rep_succ, nrzi_last_append]
      have e : nrzi_last lvl flag_bits = lvl := by
        simp only [flag_bits, nrzi_last]
        simpa using lnot_lnot lvl h
      rw [e, ih]

theorem flag_rep_zeros (n : Nat) : (flag_rep n).count 0 = 2 * n := by
  induction n with
  | zero => rfl
  | succ n ih =>
      rw [flag_rep_succ, List.count_append, ih]
      have e : flag_bits.count 0 = 2 := by decide
      omega

theorem emits_output_count (s t : State) (chan : Nat) (bits : List Int)
    (h : emits s t chan bits) :
    t.output chan = lnot^[(new_bits s t).count 0] (s.output chan) := by
  obtain ⟨_, h2, h3⟩ := h
  unfold new_bits
  rw [h3, h2, emitted_levels, nrzi_last_count]
  simp

/-! ## What holds in every reachable state -/

theorem stuff_run_le (r : Nat) (bits : List Int) (hr : r ≤ 4) : stuff_run r bits ≤ 4 := by
  induction bits generalizing r with
  | nil => exact hr
  | cons x xs ih =>
      simp only [stuff_run]
      split
      · split
        · exact ih 0 (by omega)
        · exact ih (r + 1) (by omega)
      · exact ih 0 (by omega)

theorem update_inv {P : Int → Prop} (f : Nat → Int) (chan : Nat) (v : Int)
    (hf : ∀ ch, P (f ch)) (hv : P v) : ∀ ch, P (Function.update f chan v ch) := by
  intro ch
  by_cases h : ch = chan
  · subst h
    rw [Function.update_same]
    exact hv
  · rw [Function.update_noteq h]
    exact hf ch

theorem reach_inv_of (s t : State) (chan : Nat) (v w : Int) (h : reach_inv s)
    (hs : t.stuff = Function.update s.stuff chan v) (hv : 0 ≤ v ∧ v ≤ 4)
    (ho : t.output = Function.update s.output chan w) (hw : w = 0 ∨ w = 1) :
    reach_inv t := by
  intro ch
  rw [hs, ho]
  exact ⟨update_inv (P := fun z => 0 ≤ z ∧ z ≤ 4) s.stuff chan v (fun k => (h k).1) hv ch,
    update_inv (P := fun z => z = 0 ∨ z = 1) s.output chan w (fun k => (h k).2) hw ch⟩

theorem reach_inv_init : reach_inv State.init := by
  intro ch
  exact ⟨⟨le_refl _, show (0 : Int) ≤ 4 by omega⟩, Or.inl rfl⟩

theorem run_op_reach_inv (c : Collab) (s : State) (o : Op) (h : reach_inv s) :
    reach_inv (run_op c s o) := by
  cases o with
  | data chan x =>
      have hr : s.stuff chan = ((s.stuff chan).toNat : Int) :=
        (Int.toNat_of_nonneg (h chan).1.1).symm
      have hr4 : (s.stuff chan).toNat ≤ 4 := by
        have := (h chan).1.2
        omega
      have h4 := stuff_run_le _ (byte_bits x) hr4
      refine reach_inv_of s _ chan (stuff_run (s.stuff chan).toNat (byte_bits x) : Nat)
        (nrzi_last (s.output chan) (stuff_bits (s.stuff chan).toNat (byte_bits x))) h ?_ ?_ ?_
        (nrzi_last_01 _ _ (h chan).2)
      · simp only [run_op]
        rw [send_data_eq s chan x _ hr]
        simp [set_stuff, emit_stuff]
      · omega
      · simp only [run_op]
        rw [send_data_eq s chan x _ hr]
        simp [set_stuff, emit_output]
  | control chan x =>
      refine reach_inv_of s _ chan 0 (nrzi_last (s.output chan) (byte_bits x)) h ?_ (by omega) ?_
        (nrzi_last_01 _ _ (h chan).2)
      · simp only [run_op]
        exact send_control_stuff s chan x
      · simp only [run_op]
        rw [send_control_eq]
        simp [set_stuff, emit_output]
  | frame chan fbuf bad_fcs =>
      exact reach_inv_of s _ chan 0 _ h (frame_stuff c s chan fbuf bad_fcs) (by omega)
        (frame_output c s chan fbuf bad_fcs) (nrzi_last_01 _ _ (h chan).2)
  | flags chan nflags finish =>
      by_cases hn : nflags.toNat = 0
      · refine reach_inv_of s _ chan (s.stuff chan) _ h ?_ (h chan).1
          (flags_output c s chan nflags finish) (nrzi_last_01 _ _ (h chan).2)
        simp only [run_op]
        rw [flags_stuff, if_pos hn]
        simp
      · refine reach_inv_of s _ chan 0 _ h ?_ (by omega)
          (flags_output c s chan nflags finish) (nrzi_last_01 _ _ (h chan).2)
        simp only [run_op]
        rw [flags_stuff, if_neg hn]

theorem run_ops_reach_inv (c : Collab) (s : State) (ops : List Op) (h : reach_inv s) :
    reach_inv (run_ops c s ops) := by
  induction ops generalizing s with
  | nil => exact h
  | cons o os ih => exact ih (run_op c s o) (run_op_reach_inv c s o h)

theorem send_data_step_facts (s : State) (chan : Nat) (x : Int) :
    new_bits s (send_data_step s chan x)
        = (if Int.land x 1 ≠ 0 then (if s.stuff chan = 4 then [1, 0] else [1]) else [0])
    ∧ (send_data_step s chan x).stuff chan
        = (if Int.land x 1 ≠ 0 then (if s.stuff chan = 4 then 0 else s.stuff chan + 1)
            else 0) := by
  have hx : x % 2 = 0 ∨ x % 2 = 1 := by omega
  unfold send_data_step new_bits
  rw [land_one_eq]
  rcases hx with hx | hx
  · simp [hx, send_bit]
  · by_cases h4 : s.stuff chan = 4
    · simp [hx, h4, send_bit]
    · have h5 : ¬ (s.stuff chan + 1 = 5) := by omega
      simp [hx, h4, h5, send_bit]

/-! ## One channel at a time -/

theorem filter_chan_same (d : Nat) (lv : List Int) :
    ((lv.map (fun l => (d, l))).filter (fun p => decide (p.1 = d))).map Prod.snd = lv := by
  induction lv with
  | nil => rfl
  | cons x xs ih => simp [List.filter_cons, ih]

theorem filter_chan_other (chan d : Nat) (lv : List Int) (hcd : chan ≠ d) :
    (lv.map (fun l => (chan, l))).filter (fun p => decide (p.1 = d)) = [] := by
  induction lv with
  | nil => rfl
  | cons x xs ih => simp [List.filter_cons, ih, hcd]

theorem tone_of_append_same (s t : State) (d : Nat) (lv : List Int)
    (h : t.tone = s.tone ++ lv.map (fun l => (d, l))) :
    tone_of t d = tone_of s d ++ lv := by
  unfold tone_of
  rw [h, List.filter_append, List.map_append, filter_chan_same]

theorem tone_of_append_other (s t : State) (chan d : Nat) (lv : List Int) (hcd : chan ≠ d)
    (h : t.tone = s.tone ++ lv.map (fun l => (chan, l))) :
    tone_of t d = tone_of s d := by
  unfold tone_of
  rw [h, List.filter_append, List.map_append, filter_chan_other chan d lv hcd]
  simp

theorem new_tone_chan (s t : State) (chan : Nat) (lv : List Int)
    (h : t.tone = s.tone ++ lv.map (fun l => (chan, l))) :
    ∀ p ∈ t.tone.drop s.tone.length, p.1 = chan := by
  intro p hp
  rw [h, List.drop_left] at hp
  obtain ⟨l, _, rfl⟩ := List.mem_map.mp hp
  rfl

theorem call_effect (c : Collab) (chan : Nat) (k : Call) :
    ∃ (bits : List Int) (fs fn : Int → Int), ∀ s : State,
      emits s (run_call c s chan k) chan bits
      ∧ (run_call c s chan k).stuff = Function.update s.stuff chan (fs (s.stuff chan))
      ∧ (run_call c s chan k).number_of_bits_sent
          = Function.update s.number_of_bits_sent chan (fn (s.number_of_bits_sent chan)) := by
  cases k with
  | frame fbuf bad_fcs e =>
      by_cases he : e = 0
      · subst he
        refine ⟨frame_bits c fbuf bad_fcs, fun _ => 0,
          fun _ => ((frame_bits c fbuf bad_fcs).length : Int), fun s => ?_⟩
        simp only [run_call]
        rw [dispatch_disabled]
        exact ⟨frame_emits c s chan fbuf bad_fcs, frame_stuff c s chan fbuf bad_fcs,
          frame_count c s chan fbuf bad_fcs⟩
      · by_cases hn : c.fx25_send_frame chan fbuf e > 0
        · refine ⟨[], fun z => z, fun z => z, fun s => ?_⟩
          simp only [run_call]
          rw [dispatch_success c s chan fbuf bad_fcs e he hn]
          refine ⟨emits_nil_of_eq _ _ chan rfl rfl rfl, ?_, ?_⟩
          · simp
          · simp
        · refine ⟨frame_bits c fbuf bad_fcs, fun _ => 0,
            fun _ => ((frame_bits c fbuf bad_fcs).length : Int), fun s => ?_⟩
          simp only [run_call]
          rw [dispatch_fallback c s chan fbuf bad_fcs e he (by omega)]
          obtain ⟨h1, h2, h3⟩ := frame_emits c
            { s with log := s.log ++ [Event.fx25_send_frame chan fbuf e] ++
                [Event.text_color_set, Event.dw_printf] } chan fbuf bad_fcs
          exact ⟨⟨h1, h2, h3⟩, frame_stuff c _ chan fbuf bad_fcs,
            frame_count c _ chan fbuf bad_fcs⟩
  | flags nflags finish =>
      by_cases hn : nflags.toNat = 0
      · refine ⟨flag_rep nflags.toNat, fun z => z, fun _ => 8 * (nflags.toNat : Int),
          fun s => ?_⟩
        simp only [run_call]
        refine ⟨flags_emits c s chan nflags finish, ?_, flags_count c s chan nflags finish⟩
        rw [flags_stuff, if_pos hn]
        simp
      · refine ⟨flag_rep nflags.toNat, fun _ => 0, fun _ => 8 * (nflags.toNat : Int),
          fun s => ?_⟩
        simp only [run_call]
        refine ⟨flags_emits c s chan nflags finish, ?_, flags_count c s chan nflags finish⟩
        rw [flags_stuff, if_neg hn]

theorem chan_view_step (c : Collab) (chan : Nat) (k : Call) (d : Nat) :
    ∃ F : Int × Int × Int × List Int → Int × Int × Int × List Int, ∀ s : State,
      chan_view (run_call c s chan k) d
        = if chan = d then F (chan_view s d) else chan_view s d := by
  obtain ⟨bits, fs, fn, H⟩ := call_effect c chan k
  by_cases hcd : chan = d
  · subst hcd
    refine ⟨fun v => (fn v.1, fs v.2.1, nrzi_last v.2.2.1 bits, v.2.2.2 ++ nrzi v.2.2.1 bits),
      fun s => ?_⟩
    obtain ⟨⟨ht, _, ho⟩, hst, hn⟩ := H s
    rw [if_pos rfl]
    simp only [chan_view, hst, hn, ho, Function.update_same,
      tone_of_append_same s _ chan _ ht]
  · refine ⟨fun v => v, fun s => ?_⟩
    obtain ⟨⟨ht, _, ho⟩, hst, hn⟩ := H s
    rw [if_neg hcd]
    simp only [chan_view, hst, hn, ho, Function.update_noteq (Ne.symm hcd),
      tone_of_append_other s _ chan d _ hcd ht]

theorem chan_view_other (c : Collab) (s : State) (chan d : Nat) (k : Call) (hcd : chan ≠ d) :
    chan_view (run_call c s chan k) d = chan_view s d := by
  obtain ⟨F, hF⟩ := chan_view_step c chan k d
  rw [hF, if_neg hcd]

theorem chan_view_same (c : Collab) (s t : State) (d : Nat) (k : Call)
    (h : chan_view s d = chan_view t d) :
    chan_view (run_call c s d k) d = chan_view (run_call c t d k) d := by
  obtain ⟨F, hF⟩ := chan_view_step c d k d
  rw [hF, hF, h]

theorem run_chan_calls_filter (c : Collab) (d : Nat) (keep : Nat × Call → Bool)
    (hk : ∀ p : Nat × Call, p.1 = d → keep p = true) (calls : List (Nat × Call))
    (s t : State) (h : chan_view s d = chan_view t d) :
    chan_view (run_chan_calls c s calls) d
      = chan_view (run_chan_calls c t (calls.filter keep)) d := by
  induction calls generalizing s t with
  | nil => exact h
  | cons p ps ih =>
      have step : run_chan_calls c s (p :: ps) = run_chan_calls c (run_call c s p.1 p.2) ps :=
        rfl
      rw [step]
      by_cases hp : keep p = true
      · rw [List.filter_cons_of_pos hp]
        have step2 : run_chan_calls c t (p :: ps.filter keep)
            = run_chan_calls c (run_call c t p.1 p.2) (ps.filter keep) := rfl
        rw [step2]
        apply ih
        by_cases hd : p.1 = d
        · rw [hd]
          exact chan_view_same c s t d p.2 h
        · rw [chan_view_other c s p.1 d p.2 hd, chan_view_other c t p.1 d p.2 hd]
          exact h
      · rw [List.filter_cons_of_neg hp]
        apply ih
        have hd : p.1 ≠ d := fun e => hp (hk p e)
        rw [chan_view_other c s p.1 d p.2 hd]
        exact h

/-! ## The dispatcher on success, flags next to data, the finish indicator -/

/-- C11: when encapsulation is enabled and the encapsulator returns `n > 0`,
`hdlc_send_frame` returns `n`, hands no bit to `send_bit`, forwards no level,
records the call of the encapsulator and no warning, and leaves
`number_of_bits_sent`, `stuff` and `output` as they were, whatever `bad_fcs`
is. -/
theorem dispatcher_success (c : Collab) (s : State) (chan : Nat) (fbuf : List Byte)
    (bad_fcs e : Int) (he : e ≠ 0) (hn : c.fx25_send_frame chan fbuf e > 0) :
    (hdlc_send_frame c s chan fbuf bad_fcs e).1 = c.fx25_send_frame chan fbuf e
    ∧ (hdlc_send_frame c s chan fbuf bad_fcs e).2.sent = s.sent
    ∧ (hdlc_send_frame c s chan fbuf bad_fcs e).2.tone = s.tone
    ∧ (hdlc_send_frame c s chan fbuf bad_fcs e).2.log
        = s.log ++ [Event.fx25_send_frame chan fbuf e]
    ∧ (hdlc_send_frame c s chan fbuf bad_fcs e).2.number_of_bits_sent = s.number_of_bits_sent
    ∧ (hdlc_send_frame c s chan fbuf bad_fcs e).2.stuff = s.stuff
    ∧ (hdlc_send_frame c s chan fbuf bad_fcs e).2.output = s.output := by
  rw [dispatch_success c s chan fbuf bad_fcs e he hn]
  exact ⟨rfl, rfl, rfl, rfl, rfl, rfl, rfl⟩

/-- C11 with an encapsulator that returns 312, `bad_fcs` set. -/
theorem dispatcher_success_witness :
    (1 : Int) ≠ 0 ∧ (Collab.const 0xD2A0 312).fx25_send_frame 0 [0x03, 0xF0] 1 > 0
    ∧ (hdlc_send_frame (Collab.const 0xD2A0 312) State.init 0 [0x03, 0xF0] 1 1).1
        = (Collab.const 0xD2A0 312).fx25_send_frame 0 [0x03, 0xF0] 1
    ∧ (hdlc_send_frame (Collab.const 0xD2A0 312) State.init 0 [0x03, 0xF0] 1 1).2.sent
        = State.init.sent
    ∧ (hdlc_send_frame (Collab.const 0xD2A0 312) State.init 0 [0x03, 0xF0] 1 1).2.tone
        = State.init.tone
    ∧ (hdlc_send_frame (Collab.const 0xD2A0 312) State.init 0 [0x03, 0xF0] 1 1).2.log
        = State.init.log ++ [Event.fx25_send_frame 0 [0x03, 0xF0] 1]
    ∧ (hdlc_send_frame (Collab.const 0xD2A0 312) State.init 0 [0x03, 0xF0] 1 1).2.number_of_bits_sent
        = State.init.number_of_bits_sent
    ∧ (hdlc_send_frame (Collab.const 0xD2A0 312) State.init 0 [0x03, 0xF0] 1 1).2.stuff
        = State.init.stuff
    ∧ (hdlc_send_frame (Collab.const 0xD2A0 312) State.init 0 [0x03, 0xF0] 1 1).2.output
        = State.init.output :=
  ⟨by decide, by decide,
    dispatcher_success (Collab.const 0xD2A0 312) State.init 0 [0x03, 0xF0] 1 1 (by decide)
      (by decide)⟩

/-- C12: whatever `stuff[chan]` is on entry, `send_control (chan, 0x7e)` hands
exactly the 8 bits `0,1,1,1,1,1,1,0` to `send_bit`, counts 8 bits, and leaves
`stuff[chan] = 0`; an octet sent through `send_data` right after it is stuffed
counting its own 1 bits only, so `0xFF` comes out as `1,1,1,1,1,0,1,1,1`. -/
theorem flag_never_stuffed (s : State) (chan : Nat) :
    new_bits s (send_control s chan 0x7e) = flag_bits
    ∧ (send_control s chan 0x7e).number_of_bits_sent chan = s.number_of_bits_sent chan + 8
    ∧ (send_control s chan 0x7e).stuff chan = 0
    ∧ (∀ x : Int,
        new_bits (send_control s chan 0x7e) (send_data (send_control s chan 0x7e) chan x)
          = stuff_bits 0 (byte_bits x))
    ∧ new_bits (send_control s chan 0x7e) (send_data (send_control s chan 0x7e) chan 0xff)
        = [1, 1, 1, 1, 1, 0, 1, 1, 1] := by
  have h0 : (send_control s chan 0x7e).stuff chan = ((0 : Nat) : Int) := by
    rw [send_control_stuff]
    simp
  refine ⟨?_, ?_, ?_, ?_, ?_⟩
  · rw [send_control_new_bits]
    rfl
  · rw [send_control_count]
    simp
  · simpa using h0
  · intro x
    exact send_data_new_bits _ chan x 0 h0
  · rw [send_data_new_bits _ chan 0xff 0 h0]
    decide

/-- C15: for the payload `0x03, 0xF0` with `bad_fcs` clear, after the start
flag and the two payload octets exactly 24 bits have been sent, none of them
inserted, and `stuff[chan]` is 4; the frame encoder returns 48 for every check
value whose 16 bits, low octet first and least significant bit first,
preceded by the four trailing 1 bits of the payload, have no five
consecutive 1s. -/
theorem worked_example (c : Collab) (s : State) (chan : Nat)
    (h : ¬ (([1, 1, 1, 1, 1] : List Int) <:+:
          [1, 1, 1, 1]
            ++ byte_bits (Int.land ((c.fcs_calc [0x03, 0xF0]).val : Int) 0xff)
            ++ byte_bits
                (Int.land (Int.shiftRight ((c.fcs_calc [0x03, 0xF0]).val : Int) 8) 0xff))) :
    new_bits s (send_data_bytes (send_control (reset_count s chan) chan 0x7e) chan [0x03, 0xF0])
        = flag_bits ++ byte_bits 0x03 ++ byte_bits 0xF0
    ∧ (send_data_bytes (send_control (reset_count s chan) chan 0x7e) chan
          [0x03, 0xF0]).number_of_bits_sent chan = 24
    ∧ (send_data_bytes (send_control (reset_count s chan) chan 0x7e) chan
          [0x03, 0xF0]).stuff chan = 4
    ∧ (ax25_only_hdlc_send_frame c s chan [0x03, 0xF0] 0).1 = 48 := by
  have hs : (send_control (reset_count s chan) chan 0x7e).stuff chan = ((0 : Nat) : Int) := by
    rw [send_control_stuff]
    simp
  have e : send_data_bytes (send_control (reset_count s chan) chan 0x7e) chan [0x03, 0xF0]
      = set_stuff
          (emit (reset_count s chan) chan (flag_bits ++ (byte_bits 0x03 ++ byte_bits 0xF0)))
          chan 4 := by
    rw [send_data_bytes_eq_list, send_data_list_eq _ _ chan 0 hs, send_flag_eq, emit_set_stuff,
      set_stuff_set_stuff, emit_append]
    rfl
  refine ⟨?_, ?_, ?_, ?_⟩
  · rw [e]
    unfold new_bits
    simp only [set_stuff, emit_sent, reset_count, List.append_assoc]
    exact emitted_levels _ _ _
  · rw [e]
    simp [set_stuff, emit_count, reset_count, flag_bits, byte_bits, lsb_bits]
  · rw [e]
    simp [set_stuff]
  · rw [frame_ret_count]
    have e2 : bytes_bits (frame_octets c [0x03, 0xF0] 0)
        = bytes_bits [3, 240]
            ++ (byte_bits (Int.land ((c.fcs_calc [0x03, 0xF0]).val : Int) 0xff)
              ++ byte_bits
                  (Int.land (Int.shiftRight ((c.fcs_calc [0x03, 0xF0]).val : Int) 8) 0xff)) := by
      rfl
    have e3 : stuff_count 0 (bytes_bits [3, 240]) = 0 := by decide
    have e4 : stuff_run 0 (bytes_bits [3, 240]) = 4 := by decide
    rw [e2, stuff_count_append, e3, e4, stuff_count_zero_of_no_five 4 _ (by simpa using h)]
    rfl

/-- C15 at the check value `0xD2A0`, sent as `0xA0` then `0xD2`. -/
theorem worked_example_witness :
    ¬ (([1, 1, 1, 1, 1] : List Int) <:+:
          [1, 1, 1, 1]
            ++ byte_bits
                (Int.land (((Collab.const 0xD2A0 0).fcs_calc [0x03, 0xF0]).val : Int) 0xff)
            ++ byte_bits
                (Int.land
                  (Int.shiftRight (((Collab.const 0xD2A0 0).fcs_calc [0x03, 0xF0]).val : Int) 8)
                  0xff))
    ∧ new_bits State.init
          (send_data_bytes (send_control (reset_count State.init 0) 0 0x7e) 0 [0x03, 0xF0])
        = flag_bits ++ byte_bits 0x03 ++ byte_bits 0xF0
    ∧ (send_data_bytes (send_control (reset_count State.init 0) 0 0x7e) 0
          [0x03, 0xF0]).number_of_bits_sent 0 = 24
    ∧ (send_data_bytes (send_control (reset_count State.init 0) 0 0x7e) 0
          [0x03, 0xF0]).stuff 0 = 4
    ∧ (ax25_only_hdlc_send_frame (Collab.const 0xD2A0 0) State.init 0 [0x03, 0xF0] 0).1 = 48 :=
  ⟨by decide, worked_example (Collab.const 0xD2A0 0) State.init 0 (by decide)⟩

/-- C13: from the state of program start, after any sequence of `send_data`,
`send_control`, `ax25_only_hdlc_send_frame` and `hdlc_send_flags` calls, on any
channels, every `stuff[ch]` is in `0..4`; one turn of the loop of `send_data`
that sends a 1 while `stuff[chan]` is 4 sends a 0 right after it and leaves
`stuff[chan] = 0`, any other turn sends the data bit alone; a frame send, and
a flag send of at least one flag, returns with `stuff[chan] = 0`. -/
theorem stuff_run_invariant (c : Collab) (ops : List Op) (ch : Nat) (s : State) (chan : Nat)
    (x : Int) (fbuf : List Byte) (bad_fcs : Int) (n : Nat) (finish : Int) :
    (0 ≤ (run_ops c State.init ops).stuff ch ∧ (run_ops c State.init ops).stuff ch ≤ 4)
    ∧ new_bits s (send_data_step s chan x)
        = (if Int.land x 1 ≠ 0 then (if s.stuff chan = 4 then [1, 0] else [1]) else [0])
    ∧ (send_data_step s chan x).stuff chan
        = (if Int.land x 1 ≠ 0 then (if s.stuff chan = 4 then 0 else s.stuff chan + 1)
            else 0)
    ∧ (ax25_only_hdlc_send_frame c s chan fbuf bad_fcs).2.stuff chan = 0
    ∧ (hdlc_send_flags c s chan ((n + 1 : Nat) : Int) finish).2.stuff chan = 0 := by
  refine ⟨(run_ops_reach_inv c State.init ops reach_inv_init ch).1,
    (send_data_step_facts s chan x).1, (send_data_step_facts s chan x).2, ?_, ?_⟩
  · rw [frame_stuff]
    simp
  · rw [flags_stuff]
    simp

/-- C18: started from the state that differs only in the opposite line level
on `chan`, the frame encoder and `hdlc_send_flags` return the same value,
leave the same `stuff`, hand the same bits to `send_bit` and forward the
inverse of every level; all forwarded levels are 0 or 1, and the receiver's
NRZI decoding, which marks where the line toggles, gives the same bits for
both polarities. -/
theorem polarity_symmetry (c : Collab) (s : State) (chan : Nat) (fbuf : List Byte)
    (bad_fcs nflags finish : Int) :
    ((ax25_only_hdlc_send_frame c (flip_level s chan) chan fbuf bad_fcs).1
        = (ax25_only_hdlc_send_frame c s chan fbuf bad_fcs).1
      ∧ (ax25_only_hdlc_send_frame c (flip_level s chan) chan fbuf bad_fcs).2.stuff
        = (ax25_only_hdlc_send_frame c s chan fbuf bad_fcs).2.stuff
      ∧ new_bits (flip_level s chan)
          (ax25_only_hdlc_send_frame c (flip_level s chan) chan fbuf bad_fcs).2
        = new_bits s (ax25_only_hdlc_send_frame c s chan fbuf bad_fcs).2
      ∧ new_levels (flip_level s chan)
          (ax25_only_hdlc_send_frame c (flip_level s chan) chan fbuf bad_fcs).2
        = (new_levels s (ax25_only_hdlc_send_frame c s chan fbuf bad_fcs).2).map lnot
      ∧ (∀ l ∈ new_levels s (ax25_only_hdlc_send_frame c s chan fbuf bad_fcs).2,
          l = 0 ∨ l = 1)
      ∧ nrzi_decode ((flip_level s chan).output chan)
          (new_levels (flip_level s chan)
            (ax25_only_hdlc_send_frame c (flip_level s chan) chan fbuf bad_fcs).2)
        = nrzi_decode (s.output chan)
            (new_levels s (ax25_only_hdlc_send_frame c s chan fbuf bad_fcs).2))
    ∧ ((hdlc_send_flags c (flip_level s chan) chan nflags finish).1
        = (hdlc_send_flags c s chan nflags finish).1
      ∧ (hdlc_send_flags c (flip_level s chan) chan nflags finish).2.stuff
        = (hdlc_send_flags c s chan nflags finish).2.stuff
      ∧ new_bits (flip_level s chan)
          (hdlc_send_flags c (flip_level s chan) chan nflags finish).2
        = new_bits s (hdlc_send_flags c s chan nflags finish).2
      ∧ new_levels (flip_level s chan)
          (hdlc_send_flags c (flip_level s chan) chan nflags finish).2
        = (new_levels s (hdlc_send_flags c s chan nflags finish).2).map lnot
      ∧ (∀ l ∈ new_levels s (hdlc_send_flags c s chan nflags finish).2, l = 0 ∨ l = 1)
      ∧ nrzi_decode ((flip_level s chan).output chan)
          (new_levels (flip_level s chan)
            (hdlc_send_flags c (flip_level s chan) chan nflags finish).2)
        = nrzi_decode (s.output chan)
            (new_levels s (hdlc_send_flags c s chan nflags finish).2)) := by
  have ho : (flip_level s chan).output chan = lnot (s.output chan) := by
    simp [flip_level]
  constructor
  · refine ⟨?_, ?_, ?_, ?_, ?_, ?_⟩
    · rw [frame_ret_eq, frame_ret_eq]
    · rw [frame_stuff, frame_stuff]
      rfl
    · rw [frame_new_bits, frame_new_bits]
    · rw [frame_new_levels, frame_new_levels, ho, nrzi_lnot]
    · rw [frame_new_levels]
      exact nrzi_zero_first_01 _ _
    · rw [frame_new_levels, frame_new_levels,
        nrzi_decode_nrzi _ _ (is_bits_frame_bits c fbuf bad_fcs),
        nrzi_decode_nrzi _ _ (is_bits_frame_bits c fbuf bad_fcs)]
  · refine ⟨?_, ?_, ?_, ?_, ?_, ?_⟩
    · rw [flags_ret, flags_ret]
    · rw [flags_stuff, flags_stuff]
      rfl
    · rw [flags_new_bits, flags_new_bits]
    · rw [flags_new_levels, flags_new_levels, ho, nrzi_lnot]
    · rw [flags_new_levels]
      cases nflags.toNat with
      | zero =>
          intro l hl
          simp [flag_rep, nrzi] at hl
      | succ n =>
          rw [flag_rep_succ]
          exact nrzi_zero_first_01 _ _
    · rw [flags_new_levels, flags_new_levels,
        nrzi_decode_nrzi _ _ (is_bits_flag_rep _), nrzi_decode_nrzi _ _ (is_bits_flag_rep _)]

/-- C19: when the line level of `chan` is one of the two polarities 0 and 1,
as it is in every state reachable from program start, `hdlc_send_flags`
returns with every line level as it was, having sent two 0 bits per flag; and
after a frame send, a flag send or a dispatcher call the line level of
`chan` is the starting level flipped once per 0 bit handed to `send_bit`
during the call. -/
theorem flags_preserve_level (c : Collab) (s : State) (chan : Nat) (fbuf : List Byte)
    (bad_fcs nflags finish e : Int) (ops : List Op) (ch : Nat)
    (h : s.output chan = 0 ∨ s.output chan = 1) :
    (hdlc_send_flags c s chan nflags finish).2.output = s.output
    ∧ (new_bits s (hdlc_send_flags c s chan nflags finish).2).count 0 = 2 * nflags.toNat
    ∧ (hdlc_send_flags c s chan nflags finish).2.output chan
        = lnot^[(new_bits s (hdlc_send_flags c s chan nflags finish).2).count 0]
            (s.output chan)
    ∧ (ax25_only_hdlc_send_frame c s chan fbuf bad_fcs).2.output chan
        = lnot^[(new_bits s (ax25_only_hdlc_send_frame c s chan fbuf bad_fcs).2).count 0]
            (s.output chan)
    ∧ (hdlc_send_frame c s chan fbuf bad_fcs e).2.output chan
        = lnot^[(new_bits s (hdlc_send_frame c s chan fbuf bad_fcs e).2).count 0]
            (s.output chan)
    ∧ ((run_ops c State.init ops).output ch = 0 ∨ (run_ops c State.init ops).output ch = 1) := by
  refine ⟨?_, ?_, ?_, ?_, ?_, (run_ops_reach_inv c State.init ops reach_inv_init ch).2⟩
  · rw [flags_output, nrzi_last_flag_rep _ _ h]
    simp
  · rw [flags_new_bits, flag_rep_zeros]
  · exact emits_output_count _ _ chan _ (flags_emits c s chan nflags finish)
  · exact emits_output_count _ _ chan _ (frame_emits c s chan fbuf bad_fcs)
  · obtain ⟨bits, hb⟩ := dispatch_emits c s chan fbuf bad_fcs e
    exact emits_output_count _ _ chan bits hb

/-- C19 from the state of program start: three flags on channel 0. -/
theorem flags_preserve_level_witness :
    (State.init.output 0 = 0 ∨ State.init.output 0 = 1)
    ∧ (hdlc_send_flags (Collab.const 0xD2A0 0) State.init 0 3 1).2.output = State.init.output
    ∧ (new_bits State.init (hdlc_send_flags (Collab.const 0xD2A0 0) State.init 0 3 1).2).count 0
        = 2 * (3 : Int).toNat :=
  ⟨Or.inl rfl,
    (flags_preserve_level (Collab.const 0xD2A0 0) State.init 0 [] 0 3 1 0 [] 0 (Or.inl rfl)).1,
    (flags_preserve_level (Collab.const 0xD2A0 0) State.init 0 [] 0 3 1 0 [] 0
      (Or.inl rfl)).2.1⟩

/-! ## Channel isolation -/

/-- C14: for distinct channels `chan` and `d`, a call of the frame encoder or
of `hdlc_send_flags` on `chan` leaves `number_of_bits_sent[d]`, `stuff[d]` and
`output[d]` as they were, forwards levels to the tone consumer for `chan`
only, so none for `d`; and what a sequence of calls leaves for channel `d`,
the levels forwarded for it included, is the same when the calls on `chan`
are taken out of the sequence. -/
theorem channel_isolation (c : Collab) (s : State) (chan d : Nat) (fbuf : List Byte)
    (bad_fcs nflags finish : Int) (calls : List (Nat × Call)) (h : chan ≠ d) :
    ((ax25_only_hdlc_send_frame c s chan fbuf bad_fcs).2.number_of_bits_sent d
        = s.number_of_bits_sent d
      ∧ (ax25_only_hdlc_send_frame c s chan fbuf bad_fcs).2.stuff d = s.stuff d
      ∧ (ax25_only_hdlc_send_frame c s chan fbuf bad_fcs).2.output d = s.output d
      ∧ tone_of (ax25_only_hdlc_send_frame c s chan fbuf bad_fcs).2 d = tone_of s d
      ∧ ∀ p ∈ (ax25_only_hdlc_send_frame c s chan fbuf bad_fcs).2.tone.drop s.tone.length,
          p.1 = chan)
    ∧ ((hdlc_send_flags c s chan nflags finish).2.number_of_bits_sent d
        = s.number_of_bits_sent d
      ∧ (hdlc_send_flags c s chan nflags finish).2.stuff d = s.stuff d
      ∧ (hdlc_send_flags c s chan nflags finish).2.output d = s.output d
      ∧ tone_of (hdlc_send_flags c s chan nflags finish).2 d = tone_of s d
      ∧ ∀ p ∈ (hdlc_send_flags c s chan nflags finish).2.tone.drop s.tone.length,
          p.1 = chan)
    ∧ chan_view (run_chan_calls c s calls) d
        = chan_view (run_chan_calls c s (calls.filter (fun p => decide (p.1 ≠ chan)))) d := by
  have hdc : d ≠ chan := Ne.symm h
  refine ⟨⟨?_, ?_, ?_, ?_, ?_⟩, ⟨?_, ?_, ?_, ?_, ?_⟩, ?_⟩
  · rw [frame_count, Function.update_noteq hdc]
  · rw [frame_stuff, Function.update_noteq hdc]
  · rw [frame_output, Function.update_noteq hdc]
  · exact tone_of_append_other s _ chan d _ h (frame_tone c s chan fbuf bad_fcs)
  · exact new_tone_chan s _ chan _ (frame_tone c s chan fbuf bad_fcs)
  · rw [flags_count, Function.update_noteq hdc]
  · rw [flags_stuff]
    split
    · rfl
    · rw [Function.update_noteq hdc]
  · rw [flags_output, Function.update_noteq hdc]
  · exact tone_of_append_other s _ chan d _ h (flags_emits c s chan nflags finish).1
  · exact new_tone_chan s _ chan _ (flags_emits c s chan nflags finish).1
  · apply run_chan_calls_filter c d _ _ calls s s rfl
    intro p hp
    simp only [decide_eq_true_eq]
    rw [hp]
    exact hdc

/-- C14 on channels 0 and 1: a frame on channel 0 between two flag sends on
channel 1. -/
theorem channel_isolation_witness :
    (0 : Nat) ≠ 1
    ∧ (ax25_only_hdlc_send_frame (Collab.const 0xD2A0 0) State.init 0 [0x03, 0xF0]
          0).2.number_of_bits_sent 1 = State.init.number_of_bits_sent 1
    ∧ tone_of (ax25_only_hdlc_send_frame (Collab.const 0xD2A0 0) State.init 0 [0x03, 0xF0] 0).2 1
        = tone_of State.init 1
    ∧ chan_view
          (run_chan_calls (Collab.const 0xD2A0 0) State.init
            [(1, Call.flags 1 0), (0, Call.frame [0x03, 0xF0] 0 0), (1, Call.flags 2 1)]) 1
        = chan_view
            (run_chan_calls (Collab.const 0xD2A0 0) State.init
              (([(1, Call.flags 1 0), (0, Call.frame [0x03, 0xF0] 0 0),
                  (1, Call.flags 2 1)] : List (Nat × Call)).filter
                (fun p => decide (p.1 ≠ 0)))) 1 :=
  ⟨by decide,
    (channel_isolation (Collab.const 0xD2A0 0) State.init 0 1 [0x03, 0xF0] 0 0 0
      [(1, Call.flags 1 0), (0, Call.frame [0x03, 0xF0] 0 0), (1, Call.flags 2 1)]
      (by decide)).1.1,
    (channel_isolation (Collab.const 0xD2A0 0) State.init 0 1 [0x03, 0xF0] 0 0 0
      [(1, Call.flags 1 0), (0, Call.frame [0x03, 0xF0] 0 0), (1, Call.flags 2 1)]
      (by decide)).1.2.2.2.1,
    (channel_isolation (Collab.const 0xD2A0 0) State.init 0 1 [0x03, 0xF0] 0 0 0
      [(1, Call.flags 1 0), (0, Call.frame [0x03, 0xF0] 0 0), (1, Call.flags 2 1)]
      (by decide)).2.2⟩

end HdlcSend
